import Mathlib

/-!
Verification of the coupled-harmonic-oscillator analytic core.

This file embeds, in ideal real arithmetic, the analytic solver
`CoupledOscillator` (oscillator.js), its root finder `firstTimeTo`, and the
two rational-approximation modules (`src/fraction.js` and `fractions.js`),
and proves or refutes the specified properties about them.

Conventions of the embedding:
* JavaScript floating-point numbers are idealised as real numbers `ℝ` for the
  oscillator module.  The rational-approximation module only ever receives
  float inputs, all of which are rational, so it is embedded over `ℚ`
  (with integer loop state), which keeps it executable.
* The source never mutates an oscillator after construction; each stored
  field of `_compute` is embedded as a function of the parameter record,
  with the data-flow of the source preserved (each definition cites the
  source lines it is translated from).
* `for` loops are embedded as fuel-indexed recursions; a result of `none`
  means the fuel was exhausted (used to reason about (non-)termination),
  `some r` means the loop finished with result `r`.
-/

namespace Osc

/-- Constructor parameters of `CoupledOscillator` (oscillator.js lines 27-34):
masses `m1, m2`, spring constants `k1, k2, k3`, initial displacements
`x10, x20` and initial velocities `v10, v20`. -/
structure Params where
  m1 : ℝ
  m2 : ℝ
  k1 : ℝ
  k2 : ℝ
  k3 : ℝ
  x10 : ℝ
  x20 : ℝ
  v10 : ℝ
  v20 : ℝ

/-- The `1e-14` threshold used throughout `_compute`. -/
noncomputable def eps : ℝ := 1e-14

/-- Coefficient quadruple `{cw1, sw1, cw2, sw2}` stored as `coeffs1`/`coeffs2`
(oscillator.js lines 108-119 and 68-74). -/
structure Coeffs where
  cw1 : ℝ
  sw1 : ℝ
  cw2 : ℝ
  sw2 : ℝ

/-- `const a = (k1 + k2) / m1` (oscillator.js line 40). -/
noncomputable def coefA (p : Params) : ℝ := (p.k1 + p.k2) / p.m1

/-- `const b = (k2 + k3) / m2` (oscillator.js line 41). -/
noncomputable def coefB (p : Params) : ℝ := (p.k2 + p.k3) / p.m2

/-- `const c2 = (k2 * k2) / (m1 * m2)` (oscillator.js line 42). -/
noncomputable def coefC2 (p : Params) : ℝ := p.k2 * p.k2 / (p.m1 * p.m2)

/-- `const disc = Math.sqrt((a - b) ** 2 + 4 * c2)` (oscillator.js line 44). -/
noncomputable def disc (p : Params) : ℝ :=
  Real.sqrt ((coefA p - coefB p) ^ 2 + 4 * coefC2 p)

/-- `const lam1 = ((a + b) - disc) / 2` (oscillator.js line 45). -/
noncomputable def lam1 (p : Params) : ℝ := ((coefA p + coefB p) - disc p) / 2

/-- `const lam2 = ((a + b) + disc) / 2` (oscillator.js line 46). -/
noncomputable def lam2 (p : Params) : ℝ := ((coefA p + coefB p) + disc p) / 2

/-- Coupled-branch value of `this.omega1 = Math.sqrt(Math.max(0, lam1))`
(oscillator.js line 48). -/
noncomputable def omega1c (p : Params) : ℝ := Real.sqrt (max 0 (lam1 p))

/-- Coupled-branch value of `this.omega2 = Math.sqrt(Math.max(0, lam2))`
(oscillator.js line 49). -/
noncomputable def omega2c (p : Params) : ℝ := Real.sqrt (max 0 (lam2 p))

/-- Uncoupled branch `const w1u = Math.sqrt(Math.max(0, k1 / m1))`
(oscillator.js line 57). -/
noncomputable def w1u (p : Params) : ℝ := Real.sqrt (max 0 (p.k1 / p.m1))

/-- Uncoupled branch `const w2u = Math.sqrt(Math.max(0, k3 / m2))`
(oscillator.js line 58). -/
noncomputable def w2u (p : Params) : ℝ := Real.sqrt (max 0 (p.k3 / p.m2))

/-- Uncoupled branch `this.B1 = w1u > 1e-14 ? v10 / w1u : 0`
(oscillator.js line 64). -/
noncomputable def B1u (p : Params) : ℝ :=
  if eps < w1u p then p.v10 / w1u p else 0

/-- Uncoupled branch `sw2: w2u > 1e-14 ? v20 / w2u : 0`
(oscillator.js line 73). -/
noncomputable def sw2u (p : Params) : ℝ :=
  if eps < w2u p then p.v20 / w2u p else 0

/-- Coupled branch `this.r1 = (k1 + k2 - lam1 * m1) / k2` (oscillator.js line 80). -/
noncomputable def r1c (p : Params) : ℝ := (p.k1 + p.k2 - lam1 p * p.m1) / p.k2

/-- Coupled branch `this.r2 = (k1 + k2 - lam2 * m1) / k2` (oscillator.js line 81). -/
noncomputable def r2c (p : Params) : ℝ := (p.k1 + p.k2 - lam2 p * p.m1) / p.k2

/-- Coupled branch `const denom = r1 - r2` (oscillator.js line 84). -/
noncomputable def denom (p : Params) : ℝ := r1c p - r2c p

/-- Coupled branch `this.A1` (oscillator.js lines 87-94): the degenerate case
`|denom| < 1e-14` assigns all initial displacement to mode 1. -/
noncomputable def A1c (p : Params) : ℝ :=
  if |denom p| < eps then p.x10 else (p.x20 - r2c p * p.x10) / denom p

/-- Coupled branch `this.A2` (oscillator.js lines 87-94). -/
noncomputable def A2c (p : Params) : ℝ :=
  if |denom p| < eps then 0 else p.x10 - A1c p

/-- Coupled branch `this.B1` (oscillator.js lines 97-103). -/
noncomputable def B1c (p : Params) : ℝ :=
  if |denom p| < eps ∨ |omega1c p| < eps then
    (if eps < omega1c p then p.v10 / omega1c p else 0)
  else (p.v20 - r2c p * p.v10) / (omega1c p * denom p)

/-- Coupled branch `this.B2` (oscillator.js lines 97-103). -/
noncomputable def B2c (p : Params) : ℝ :=
  if |denom p| < eps ∨ |omega1c p| < eps then 0
  else (if eps < omega2c p then (p.v10 - omega1c p * B1c p) / omega2c p else 0)

/-- Stored `this.omega1`: the uncoupled special case `|k2| < 1e-14`
(oscillator.js lines 56-76) overwrites the eigenvalue-based value with `w1u`. -/
noncomputable def omega1 (p : Params) : ℝ :=
  if |p.k2| < eps then w1u p else omega1c p

/-- Stored `this.omega2` (oscillator.js lines 49 and 60). -/
noncomputable def omega2 (p : Params) : ℝ :=
  if |p.k2| < eps then w2u p else omega2c p

/-- Stored `this.coeffs1` (oscillator.js lines 68 and 108-113). -/
noncomputable def coeffs1 (p : Params) : Coeffs :=
  if |p.k2| < eps then ⟨p.x10, B1u p, 0, 0⟩
  else ⟨A1c p, B1c p, A2c p, B2c p⟩

/-- Stored `this.coeffs2` (oscillator.js lines 69-74 and 114-119). -/
noncomputable def coeffs2 (p : Params) : Coeffs :=
  if |p.k2| < eps then ⟨0, 0, p.x20, sw2u p⟩
  else ⟨r1c p * A1c p, r1c p * B1c p, r2c p * A2c p, r2c p * B2c p⟩

/-- The coefficient quadruple the evaluators select:
`const c = mass === 1 ? this.coeffs1 : this.coeffs2` (oscillator.js line 128). -/
noncomputable def coeffsOf (p : Params) (mass : ℕ) : Coeffs :=
  if mass = 1 then coeffs1 p else coeffs2 p

/-- `position(mass, t)` (oscillator.js lines 127-136). -/
noncomputable def position (p : Params) (mass : ℕ) (t : ℝ) : ℝ :=
  (coeffsOf p mass).cw1 * Real.cos (omega1 p * t) +
    (coeffsOf p mass).sw1 * Real.sin (omega1 p * t) +
    (coeffsOf p mass).cw2 * Real.cos (omega2 p * t) +
    (coeffsOf p mass).sw2 * Real.sin (omega2 p * t)

/-- `velocity(mass, t)` (oscillator.js lines 141-150). -/
noncomputable def velocity (p : Params) (mass : ℕ) (t : ℝ) : ℝ :=
  -(coeffsOf p mass).cw1 * omega1 p * Real.sin (omega1 p * t) +
    (coeffsOf p mass).sw1 * omega1 p * Real.cos (omega1 p * t) +
    -(coeffsOf p mass).cw2 * omega2 p * Real.sin (omega2 p * t) +
    (coeffsOf p mass).sw2 * omega2 p * Real.cos (omega2 p * t)

/-- `acceleration(mass, t)` (oscillator.js lines 155-164). -/
noncomputable def acceleration (p : Params) (mass : ℕ) (t : ℝ) : ℝ :=
  -(coeffsOf p mass).cw1 * omega1 p * omega1 p * Real.cos (omega1 p * t) -
    (coeffsOf p mass).sw1 * omega1 p * omega1 p * Real.sin (omega1 p * t) +
    -(coeffsOf p mass).cw2 * omega2 p * omega2 p * Real.cos (omega2 p * t) -
    (coeffsOf p mass).sw2 * omega2 p * omega2 p * Real.sin (omega2 p * t)

/-- Error kind demanded by the specification for non-positive masses.
The constructor of the source never raises it (oscillator.js lines 27-34
perform no validation at all), which `construct` below makes explicit. -/
inductive ConfigError where
  | nonPositiveMass

/-- The `CoupledOscillator` constructor (oscillator.js lines 27-34): it stores
the parameters and computes the derived values, with no validation of any
kind, so it always succeeds. -/
def construct (p : Params) : Except ConfigError Params := Except.ok p

/-- The quantity selector of `firstTimeTo` (oscillator.js lines 202-207):
`'x'` selects position, `'v'` selects velocity, and every other string falls
through to acceleration. -/
noncomputable def quantityF (p : Params) (mass : ℕ) (q : String) (t : ℝ) : ℝ :=
  if q = "x" then position p mass t
  else if q = "v" then velocity p mass t
  else acceleration p mass t

/-- The bisection refinement of `firstTimeTo` (oscillator.js lines 223-231),
run with fuel 60; when the fuel is exhausted it returns the midpoint of the
current bracket.  `f` is the already-target-shifted objective, `pF` the
mutable `prevF` of the source. -/
noncomputable def bisect (f : ℝ → ℝ) (tol : ℝ) : ℕ → ℝ → ℝ → ℝ → ℝ
  | 0, lo, hi, _ => (lo + hi) / 2
  | n + 1, lo, hi, pF =>
    if |f ((lo + hi) / 2)| < tol then (lo + hi) / 2
    else if pF * f ((lo + hi) / 2) ≤ 0 then bisect f tol n lo ((lo + hi) / 2) pF
    else bisect f tol n ((lo + hi) / 2) hi (f ((lo + hi) / 2))

/-- The coarse scan loop of `firstTimeTo` (oscillator.js lines 215-237),
embedded with explicit fuel.  The arguments after the fuel are the loop
variable `t` and the mutable `prevT`, `prevF`.  A result of `none` means the
fuel was exhausted before the loop finished; `some none` is the source's
`return null`; `some (some r)` is a returned time. -/
noncomputable def scanAux (f : ℝ → ℝ) (tol tMax dt : ℝ) :
    ℕ → ℝ → ℝ → ℝ → Option (Option ℝ)
  | 0, _, _, _ => none
  | n + 1, t, pT, pF =>
    if t ≤ tMax + dt * 0.5 then
      if |f (min t tMax)| < tol then some (some (min t tMax))
      else if pF * f (min t tMax) < 0 then
        some (some (bisect f tol 60 pT (min t tMax) pF))
      else if tMax ≤ min t tMax then some none
      else scanAux f tol tMax dt n (t + dt) (min t tMax) (f (min t tMax))
    else some none

/-- `firstTimeTo(mass, quantity, target, {tMin, tMax, dt, tolerance})`
(oscillator.js lines 194-240), with the options passed positionally (the
source defaults are `tMin = 0, tMax = 100, dt = 0.01, tolerance = 1e-9`) and
the scan loop given explicit fuel. -/
noncomputable def firstTimeToFuel (p : Params) (mass : ℕ) (q : String)
    (target tMin tMax dt tol : ℝ) (fuel : ℕ) : Option (Option ℝ) :=
  if |quantityF p mass q tMin - target| < tol then some (some tMin)
  else
    scanAux (fun t => quantityF p mass q t - target) tol tMax dt fuel
      (tMin + dt) tMin (quantityF p mass q tMin - target)

/-- Big-step result of `firstTimeTo`: some amount of fuel makes the embedded
loop finish with result `r` (`r = none` is the source's `null`). -/
def FirstTimeToReturns (p : Params) (mass : ℕ) (q : String)
    (target tMin tMax dt tol : ℝ) (r : Option ℝ) : Prop :=
  ∃ fuel, firstTimeToFuel p mass q target tMin tMax dt tol fuel = some r

/-- The `firstTimeTo` call terminates: its loop finishes under some fuel. -/
def FirstTimeToTerminates (p : Params) (mass : ℕ) (q : String)
    (target tMin tMax dt tol : ℝ) : Prop :=
  ∃ r, FirstTimeToReturns p mass q target tMin tMax dt tol r

/-- Symmetric test configuration `m1 = m2 = 1`, `k1 = k3 = 1`, `k2 = 1/2`,
`x10 = x20 = 1`, `v10 = v20 = 0` (the in-phase mode of the test suite). -/
noncomputable def symP : Params := ⟨1, 1, 1, 1 / 2, 1, 1, 1, 0, 0⟩

/-- Uncoupled test configuration `k2 = 0` with `k1 = 4`, `k3 = 1` and unit
masses: each mass oscillates at its own natural frequency `2` resp. `1`. -/
noncomputable def uncoupledP : Params := ⟨1, 1, 4, 0, 1, 1, 0, 0, 0⟩

end Osc

open Osc

/-- Claim C4 (code_bug): the spec requires construction to fail with a
`ConfigError` for non-positive masses, but the source constructor performs no
validation whatsoever: on the failing input `m1 = 0` (and on every other
parameter record) `construct` succeeds. -/
theorem claim4_constructor_never_raises :
    (Params.mk 0 1 1 1 1 1 0 0 0).m1 ≤ 0 ∧
      construct (Params.mk 0 1 1 1 1 1 0 0 0) =
        Except.ok (Params.mk 0 1 1 1 1 1 0 0 0) ∧
      ∀ p : Params, construct p = Except.ok p :=
  ⟨le_refl 0, rfl, fun _ => rfl⟩

/-- Claim C10 (confirmed): `firstTimeTo` with any quantity string other than
`"x"` and `"v"` behaves exactly like quantity `"a"` (acceleration); there is
no invalid-quantity error at this interface. -/
theorem claim10_other_quantity_is_acceleration (p : Params) (mass : ℕ)
    (q : String) (target tMin tMax dt tol : ℝ) (fuel : ℕ)
    (hx : q ≠ "x") (hv : q ≠ "v") :
    firstTimeToFuel p mass q target tMin tMax dt tol fuel =
      firstTimeToFuel p mass "a" target tMin tMax dt tol fuel := by
  have hq : quantityF p mass q = quantityF p mass "a" := by
    funext t
    rw [quantityF, quantityF, if_neg hx, if_neg hv,
      if_neg (by decide : ¬("a" : String) = "x"),
      if_neg (by decide : ¬("a" : String) = "v")]
  rw [firstTimeToFuel, firstTimeToFuel, hq]

/-- Witness for C10 at the concrete invalid quantity string `"position"`. -/
theorem claim10_other_quantity_is_acceleration_witness :
    ("position" : String) ≠ "x" ∧ ("position" : String) ≠ "v" ∧
      firstTimeToFuel symP 1 "position" 0 0 1 1 (1e-9) 3 =
        firstTimeToFuel symP 1 "a" 0 0 1 1 (1e-9) 3 :=
  ⟨by decide, by decide,
    claim10_other_quantity_is_acceleration symP 1 "position" 0 0 1 1 (1e-9) 3
      (by decide) (by decide)⟩

/-- Claim C5, amended part (the ordering does hold in the coupled branch
`|k2| ≥ 1e-14`, where both frequencies come from the ordered eigenvalues). -/
theorem claim5_frequencies_ordered_in_coupled_branch (p : Params)
    (h : ¬ |p.k2| < eps) : omega1 p ≤ omega2 p := by
  rw [omega1, omega2, if_neg h, if_neg h]
  apply Real.sqrt_le_sqrt
  apply max_le_max le_rfl
  have hd : 0 ≤ disc p := Real.sqrt_nonneg _
  rw [lam1, lam2]
  linarith

/-- Witness for the amended C5 at the symmetric configuration. -/
theorem claim5_frequencies_ordered_in_coupled_branch_witness :
    ¬ |symP.k2| < eps ∧ omega1 symP ≤ omega2 symP :=
  ⟨by rw [symP, eps]; rw [abs_of_nonneg (by norm_num : (0:ℝ) ≤ 1 / 2)]; norm_num,
    claim5_frequencies_ordered_in_coupled_branch symP
      (by rw [symP, eps, abs_of_nonneg (by norm_num : (0:ℝ) ≤ 1 / 2)]; norm_num)⟩

/-- Counterexample to C5 as stated: in the zero-coupling branch the stored
frequencies are the two independent natural frequencies, which are not
reordered; with `k1 = 4`, `k3 = 1` and unit masses, `omega1 = 2 > 1 = omega2`. -/
theorem claim5_frequencies_ordered_counterexample :
    omega2 uncoupledP < omega1 uncoupledP := by
  have hk : |uncoupledP.k2| < eps := by rw [uncoupledP, eps]; norm_num
  rw [omega1, omega2, if_pos hk, if_pos hk, w1u, w2u, uncoupledP]
  norm_num
  rw [show ((4 : ℝ)) = 2 ^ 2 by norm_num, Real.sqrt_sq (by norm_num : (0:ℝ) ≤ 2)]
  nlinarith [Real.sq_sqrt (by norm_num : (0:ℝ) ≤ 1),
    Real.sqrt_nonneg (1 : ℝ)]

namespace Osc

/-- Discriminant squaring: the argument of the square root in `disc` is
nonnegative, so squaring recovers it (positive masses are enough: the
coupling term is a square over `m1 * m2`). -/
theorem disc_sq (p : Params) (hm1 : 0 < p.m1) (hm2 : 0 < p.m2) :
    disc p ^ 2 = (coefA p - coefB p) ^ 2 + 4 * coefC2 p := by
  rw [disc]
  apply Real.sq_sqrt
  have h2 : 0 ≤ coefC2 p := by
    rw [coefC2]
    exact div_nonneg (mul_self_nonneg p.k2) (mul_pos hm1 hm2).le
  nlinarith [sq_nonneg (coefA p - coefB p)]

/-- The two eigenvalues sum to the trace `a + b`. -/
theorem lam_sum (p : Params) : lam1 p + lam2 p = coefA p + coefB p := by
  rw [lam1, lam2]; ring

/-- The two eigenvalues multiply to the determinant `a * b - c2`. -/
theorem lam_prod (p : Params) (hm1 : 0 < p.m1) (hm2 : 0 < p.m2) :
    lam1 p * lam2 p = coefA p * coefB p - coefC2 p := by
  have hd := disc_sq p hm1 hm2
  rw [lam1, lam2]
  linear_combination (-1 / 4 : ℝ) * hd

/-- Each eigenvalue satisfies the characteristic equation, in the factored
form `(a - λ) * (b - λ) = c2`. -/
theorem eig1 (p : Params) (hm1 : 0 < p.m1) (hm2 : 0 < p.m2) :
    (coefA p - lam1 p) * (coefB p - lam1 p) = coefC2 p := by
  have hp := lam_prod p hm1 hm2
  have hs := lam_sum p
  linear_combination -hp + lam1 p * hs

/-- The second eigenvalue also satisfies the characteristic equation. -/
theorem eig2 (p : Params) (hm1 : 0 < p.m1) (hm2 : 0 < p.m2) :
    (coefA p - lam2 p) * (coefB p - lam2 p) = coefC2 p := by
  have hp := lam_prod p hm1 hm2
  have hs := lam_sum p
  linear_combination -hp + lam2 p * hs

/-- With nonnegative spring constants and positive masses, `lam1 ≥ 0`
(the clamp `Math.max(0, lam1)` is then the identity). -/
theorem lam1_nonneg (p : Params) (hm1 : 0 < p.m1) (hm2 : 0 < p.m2)
    (hk1 : 0 ≤ p.k1) (hk2 : 0 ≤ p.k2) (hk3 : 0 ≤ p.k3) : 0 ≤ lam1 p := by
  have ha : 0 ≤ coefA p := by rw [coefA]; positivity
  have hb : 0 ≤ coefB p := by rw [coefB]; positivity
  have hab : coefC2 p ≤ coefA p * coefB p := by
    rw [coefA, coefB, coefC2, div_mul_div_comm]
    apply div_le_div_of_nonneg_right _ (by positivity)
    nlinarith [mul_nonneg hk1 hk2, mul_nonneg hk1 hk3, mul_nonneg hk2 hk3]
  have h1 : (coefA p - coefB p) ^ 2 + 4 * coefC2 p ≤ (coefA p + coefB p) ^ 2 := by
    nlinarith
  have h2 : disc p ≤ coefA p + coefB p := by
    rw [disc]
    calc Real.sqrt ((coefA p - coefB p) ^ 2 + 4 * coefC2 p)
        ≤ Real.sqrt ((coefA p + coefB p) ^ 2) := Real.sqrt_le_sqrt h1
      _ = coefA p + coefB p := Real.sqrt_sq (by linarith)
  rw [lam1]; linarith

/-- With nonnegative spring constants and positive masses, `lam2 ≥ 0`. -/
theorem lam2_nonneg (p : Params) (hm1 : 0 < p.m1) (hm2 : 0 < p.m2)
    (hk1 : 0 ≤ p.k1) (hk2 : 0 ≤ p.k2) (hk3 : 0 ≤ p.k3) : 0 ≤ lam2 p := by
  have ha : 0 ≤ coefA p := by rw [coefA]; positivity
  have hb : 0 ≤ coefB p := by rw [coefB]; positivity
  have hd : 0 ≤ disc p := Real.sqrt_nonneg _
  rw [lam2]; linarith

/-- Clearing the division in `r1`: `k2 * r1 = k1 + k2 - lam1 * m1`. -/
theorem kr1 (p : Params) (hk2 : p.k2 ≠ 0) :
    p.k2 * r1c p = p.k1 + p.k2 - lam1 p * p.m1 := by
  rw [r1c]; field_simp

/-- Clearing the division in `r2`: `k2 * r2 = k1 + k2 - lam2 * m1`. -/
theorem kr2 (p : Params) (hk2 : p.k2 ≠ 0) :
    p.k2 * r2c p = p.k1 + p.k2 - lam2 p * p.m1 := by
  rw [r2c]; field_simp

/-- Row-two eigenvector identity of mode 1: `r1 * (k2 + k3 - m2 * lam1) = k2`
(a consequence of the characteristic equation). -/
theorem row2_id1 (p : Params) (hm1 : 0 < p.m1) (hm2 : 0 < p.m2)
    (hk2 : p.k2 ≠ 0) : r1c p * (p.k2 + p.k3 - p.m2 * lam1 p) = p.k2 := by
  have hA : p.m1 * coefA p = p.k1 + p.k2 := by
    rw [coefA]; field_simp
  have hB : p.m2 * coefB p = p.k2 + p.k3 := by
    rw [coefB]; field_simp
  have hC : p.m1 * p.m2 * coefC2 p = p.k2 * p.k2 := by
    rw [coefC2]; field_simp
  have he := eig1 p hm1 hm2
  have h1 := kr1 p hk2
  apply mul_left_cancel₀ hk2
  calc p.k2 * (r1c p * (p.k2 + p.k3 - p.m2 * lam1 p))
      = (p.k2 * r1c p) * (p.k2 + p.k3 - p.m2 * lam1 p) := by ring
    _ = (p.m1 * (coefA p - lam1 p)) * (p.m2 * (coefB p - lam1 p)) := by
        rw [h1]
        linear_combination (-(p.k2 + p.k3 - p.m2 * lam1 p)) * hA +
          (-(p.m1 * coefA p - p.m1 * lam1 p)) * hB
    _ = p.m1 * p.m2 * ((coefA p - lam1 p) * (coefB p - lam1 p)) := by ring
    _ = p.m1 * p.m2 * coefC2 p := by rw [he]
    _ = p.k2 * p.k2 := hC

/-- Row-two eigenvector identity of mode 2. -/
theorem row2_id2 (p : Params) (hm1 : 0 < p.m1) (hm2 : 0 < p.m2)
    (hk2 : p.k2 ≠ 0) : r2c p * (p.k2 + p.k3 - p.m2 * lam2 p) = p.k2 := by
  have hA : p.m1 * coefA p = p.k1 + p.k2 := by
    rw [coefA]; field_simp
  have hB : p.m2 * coefB p = p.k2 + p.k3 := by
    rw [coefB]; field_simp
  have hC : p.m1 * p.m2 * coefC2 p = p.k2 * p.k2 := by
    rw [coefC2]; field_simp
  have he := eig2 p hm1 hm2
  have h1 := kr2 p hk2
  apply mul_left_cancel₀ hk2
  calc p.k2 * (r2c p * (p.k2 + p.k3 - p.m2 * lam2 p))
      = (p.k2 * r2c p) * (p.k2 + p.k3 - p.m2 * lam2 p) := by ring
    _ = (p.m1 * (coefA p - lam2 p)) * (p.m2 * (coefB p - lam2 p)) := by
        rw [h1]
        linear_combination (-(p.k2 + p.k3 - p.m2 * lam2 p)) * hA +
          (-(p.m1 * coefA p - p.m1 * lam2 p)) * hB
    _ = p.m1 * p.m2 * ((coefA p - lam2 p) * (coefB p - lam2 p)) := by ring
    _ = p.m1 * p.m2 * coefC2 p := by rw [he]
    _ = p.k2 * p.k2 := hC

/-- Both equations of motion hold exactly, for every time, in the coupled
branch `|k2| ≥ 1e-14` of `_compute` (for any initial conditions, including
the degenerate `|denom| < 1e-14` fallback, because the equations only
constrain the mode structure, not the amplitudes). -/
theorem eom_coupled (p : Params) (hm1 : 0 < p.m1) (hm2 : 0 < p.m2)
    (hk1 : 0 ≤ p.k1) (hk2 : 0 ≤ p.k2) (hk3 : 0 ≤ p.k3)
    (hbr : ¬ |p.k2| < eps) (t : ℝ) :
    p.m1 * acceleration p 1 t =
        -(p.k1 + p.k2) * position p 1 t + p.k2 * position p 2 t ∧
      p.m2 * acceleration p 2 t =
        p.k2 * position p 1 t - (p.k2 + p.k3) * position p 2 t := by
  have hk2ne : p.k2 ≠ 0 := by
    intro h
    exact hbr (by rw [h, abs_zero, eps]; norm_num)
  have hw1 : omega1c p * omega1c p = lam1 p := by
    rw [omega1c, Real.mul_self_sqrt (le_max_left 0 (lam1 p)),
      max_eq_right (lam1_nonneg p hm1 hm2 hk1 hk2 hk3)]
  have hw2 : omega2c p * omega2c p = lam2 p := by
    rw [omega2c, Real.mul_self_sqrt (le_max_left 0 (lam2 p)),
      max_eq_right (lam2_nonneg p hm1 hm2 hk1 hk2 hk3)]
  have hr1 := kr1 p hk2ne
  have hr2 := kr2 p hk2ne
  have hs1 := row2_id1 p hm1 hm2 hk2ne
  have hs2 := row2_id2 p hm1 hm2 hk2ne
  have ho1 : omega1 p = omega1c p := by rw [omega1, if_neg hbr]
  have ho2 : omega2 p = omega2c p := by rw [omega2, if_neg hbr]
  have hc1 : coeffsOf p 1 = ⟨A1c p, B1c p, A2c p, B2c p⟩ := by
    rw [coeffsOf, if_pos rfl, coeffs1, if_neg hbr]
  have hc2 : coeffsOf p 2 = ⟨r1c p * A1c p, r1c p * B1c p,
      r2c p * A2c p, r2c p * B2c p⟩ := by
    rw [coeffsOf, if_neg (by norm_num), coeffs2, if_neg hbr]
  constructor
  · rw [acceleration, position, position, hc1, hc2, ho1, ho2]
    dsimp only
    linear_combination
      (-(p.m1) * (A1c p * Real.cos (omega1c p * t) +
          B1c p * Real.sin (omega1c p * t))) * hw1 +
        (-(p.m1) * (A2c p * Real.cos (omega2c p * t) +
          B2c p * Real.sin (omega2c p * t))) * hw2 -
        (A1c p * Real.cos (omega1c p * t) +
          B1c p * Real.sin (omega1c p * t)) * hr1 -
        (A2c p * Real.cos (omega2c p * t) +
          B2c p * Real.sin (omega2c p * t)) * hr2
  · rw [acceleration, position, position, hc1, hc2, ho1, ho2]
    dsimp only
    linear_combination
      (-(p.m2) * r1c p * (A1c p * Real.cos (omega1c p * t) +
          B1c p * Real.sin (omega1c p * t))) * hw1 +
        (-(p.m2) * r2c p * (A2c p * Real.cos (omega2c p * t) +
          B2c p * Real.sin (omega2c p * t))) * hw2 +
        (A1c p * Real.cos (omega1c p * t) +
          B1c p * Real.sin (omega1c p * t)) * hs1 +
        (A2c p * Real.cos (omega2c p * t) +
          B2c p * Real.sin (omega2c p * t)) * hs2

/-- Both equations of motion hold exactly, for every time, in the uncoupled
branch when `k2` is exactly zero. -/
theorem eom_uncoupled (p : Params) (hm1 : 0 < p.m1) (hm2 : 0 < p.m2)
    (hk1 : 0 ≤ p.k1) (hk3 : 0 ≤ p.k3) (hk2 : p.k2 = 0) (t : ℝ) :
    p.m1 * acceleration p 1 t =
        -(p.k1 + p.k2) * position p 1 t + p.k2 * position p 2 t ∧
      p.m2 * acceleration p 2 t =
        p.k2 * position p 1 t - (p.k2 + p.k3) * position p 2 t := by
  have hbr : |p.k2| < eps := by rw [hk2, abs_zero, eps]; norm_num
  have hw1 : w1u p * w1u p = p.k1 / p.m1 := by
    rw [w1u, Real.mul_self_sqrt (le_max_left 0 _),
      max_eq_right (div_nonneg hk1 hm1.le)]
  have hw2 : w2u p * w2u p = p.k3 / p.m2 := by
    rw [w2u, Real.mul_self_sqrt (le_max_left 0 _),
      max_eq_right (div_nonneg hk3 hm2.le)]
  have hm1k : p.m1 * (p.k1 / p.m1) = p.k1 := by field_simp
  have hm2k : p.m2 * (p.k3 / p.m2) = p.k3 := by field_simp
  have ho1 : omega1 p = w1u p := by rw [omega1, if_pos hbr]
  have ho2 : omega2 p = w2u p := by rw [omega2, if_pos hbr]
  have hc1 : coeffsOf p 1 = ⟨p.x10, B1u p, 0, 0⟩ := by
    rw [coeffsOf, if_pos rfl, coeffs1, if_pos hbr]
  have hc2 : coeffsOf p 2 = ⟨0, 0, p.x20, sw2u p⟩ := by
    rw [coeffsOf, if_neg (by norm_num), coeffs2, if_pos hbr]
  constructor
  · rw [acceleration, position, position, hc1, hc2, ho1, ho2, hk2]
    dsimp only
    linear_combination
      (-(p.m1) * (p.x10 * Real.cos (w1u p * t) +
          B1u p * Real.sin (w1u p * t))) * hw1 +
        (-(p.x10 * Real.cos (w1u p * t) + B1u p * Real.sin (w1u p * t))) * hm1k
  · rw [acceleration, position, position, hc1, hc2, ho1, ho2, hk2]
    dsimp only
    linear_combination
      (-(p.m2) * (p.x20 * Real.cos (w2u p * t) +
          sw2u p * Real.sin (w2u p * t))) * hw2 +
        (-(p.x20 * Real.cos (w2u p * t) + sw2u p * Real.sin (w2u p * t))) * hm2k

end Osc

namespace Osc

/-- Uncoupled-threshold configuration used as the C1 counterexample:
`k2 = 1e-15` is nonzero but below the `1e-14` branch threshold, and the
initial displacement is large enough that the dropped coupling term exceeds
the spec's `1e-5` tolerance. -/
noncomputable def bigP : Params := ⟨1, 1, 1, 1e-15, 1, 2e20, 0, 0, 0⟩

end Osc

/-- Claim C1, amended: for every configuration with positive masses,
nonnegative spring constants, and a coupling constant that is either exactly
zero or at least the branch threshold `1e-14`, both equations of motion of
the fixed-fixed topology hold exactly at every time. -/
theorem claim1_equations_of_motion (p : Params) (hm1 : 0 < p.m1)
    (hm2 : 0 < p.m2) (hk1 : 0 ≤ p.k1) (hk2 : 0 ≤ p.k2) (hk3 : 0 ≤ p.k3)
    (hbr : p.k2 = 0 ∨ eps ≤ p.k2) (t : ℝ) :
    p.m1 * acceleration p 1 t =
        -(p.k1 + p.k2) * position p 1 t + p.k2 * position p 2 t ∧
      p.m2 * acceleration p 2 t =
        p.k2 * position p 1 t - (p.k2 + p.k3) * position p 2 t := by
  rcases hbr with h0 | hge
  · exact eom_uncoupled p hm1 hm2 hk1 hk3 h0 t
  · refine eom_coupled p hm1 hm2 hk1 hk2 hk3 ?_ t
    rw [abs_of_nonneg hk2]
    exact not_lt.mpr hge

/-- Witness for the amended C1 at the symmetric configuration and `t = 1`. -/
theorem claim1_equations_of_motion_witness :
    (0 < symP.m1 ∧ 0 < symP.m2 ∧ 0 ≤ symP.k1 ∧ 0 ≤ symP.k2 ∧ 0 ≤ symP.k3 ∧
        (symP.k2 = 0 ∨ eps ≤ symP.k2)) ∧
      (symP.m1 * acceleration symP 1 1 =
          -(symP.k1 + symP.k2) * position symP 1 1 +
            symP.k2 * position symP 2 1 ∧
        symP.m2 * acceleration symP 2 1 =
          symP.k2 * position symP 1 1 -
            (symP.k2 + symP.k3) * position symP 2 1) :=
  ⟨⟨by rw [symP]; norm_num, by rw [symP]; norm_num, by rw [symP]; norm_num,
      by rw [symP]; norm_num, by rw [symP]; norm_num,
      Or.inr (by rw [symP, eps]; norm_num)⟩,
    claim1_equations_of_motion symP (by rw [symP]; norm_num)
      (by rw [symP]; norm_num) (by rw [symP]; norm_num) (by rw [symP]; norm_num)
      (by rw [symP]; norm_num) (Or.inr (by rw [symP, eps]; norm_num)) 1⟩

/-- Counterexample to C1 as stated: with `k2 = 1e-15` (positive masses, all
spring constants nonnegative) the zero-coupling branch is taken, and at
`t = 0` with `x10 = 2e20` the residual of the first equation of motion is
`2e5`, far beyond the spec's `1e-5` tolerance. -/
theorem claim1_equations_of_motion_counterexample :
    1e-5 < |bigP.m1 * acceleration bigP 1 0 -
      (-(bigP.k1 + bigP.k2) * position bigP 1 0 +
        bigP.k2 * position bigP 2 0)| := by
  have hk : |bigP.k2| < eps := by
    rw [bigP, eps]
    rw [abs_of_nonneg (by norm_num : (0:ℝ) ≤ 1e-15)]
    norm_num
  have hw : w1u bigP = 1 := by
    rw [w1u, bigP]
    norm_num
  have hb1 : B1u bigP = 0 := by
    rw [B1u, bigP]
    norm_num
  have hc1 : coeffsOf bigP 1 = ⟨2e20, 0, 0, 0⟩ := by
    rw [coeffsOf, if_pos rfl, coeffs1, if_pos hk, hb1]
    rw [bigP]
  have hc2 : coeffsOf bigP 2 = ⟨0, 0, 0, sw2u bigP⟩ := by
    rw [coeffsOf, if_neg (by norm_num), coeffs2, if_pos hk]
    rw [bigP]
  have ho1 : omega1 bigP = 1 := by rw [omega1, if_pos hk, hw]
  rw [acceleration, position, position, hc1, hc2, ho1]
  dsimp only
  rw [mul_zero, Real.cos_zero, Real.sin_zero, bigP]
  norm_num

namespace Osc

/-- The branch threshold is positive. -/
theorem eps_pos : 0 < eps := by rw [eps]; norm_num

/-- Position at time zero is the sum of the two cosine coefficients. -/
theorem position_zero (p : Params) (mass : ℕ) :
    position p mass 0 = (coeffsOf p mass).cw1 + (coeffsOf p mass).cw2 := by
  rw [position]
  simp only [mul_zero, Real.cos_zero, Real.sin_zero]
  ring

/-- Velocity at time zero is the frequency-weighted sum of the two sine
coefficients. -/
theorem velocity_zero (p : Params) (mass : ℕ) :
    velocity p mass 0 =
      (coeffsOf p mass).sw1 * omega1 p + (coeffsOf p mass).sw2 * omega2 p := by
  rw [velocity]
  simp only [mul_zero, Real.cos_zero, Real.sin_zero]
  ring

/-- Zero-coupling configuration with a free first mass (`k1 = 0`) and a unit
initial velocity on it, used as the C2 counterexample. -/
noncomputable def freeP : Params := ⟨1, 1, 0, 0, 1, 0, 0, 1, 0⟩

end Osc

/-- Claim C2, amended: whenever both stored frequencies exceed the `1e-14`
threshold and, in the coupled branch, the eigenvector-ratio difference
`denom` is at least `1e-14` in magnitude, the evaluators reproduce the
initial conditions exactly at `t = 0` (for both masses, in both the coupled
and the zero-coupling branch). -/
theorem claim2_initial_conditions (p : Params)
    (h1 : eps < omega1 p) (h2 : eps < omega2 p)
    (hbr : |p.k2| < eps ∨ eps ≤ |denom p|) :
    position p 1 0 = p.x10 ∧ position p 2 0 = p.x20 ∧
      velocity p 1 0 = p.v10 ∧ velocity p 2 0 = p.v20 := by
  have hc1of : coeffsOf p 1 = coeffs1 p := by rw [coeffsOf, if_pos rfl]
  have hc2of : coeffsOf p 2 = coeffs2 p := by
    rw [coeffsOf, if_neg (by norm_num)]
  by_cases hk : |p.k2| < eps
  · have ho1 : omega1 p = w1u p := by rw [omega1, if_pos hk]
    have ho2 : omega2 p = w2u p := by rw [omega2, if_pos hk]
    have hw1 : eps < w1u p := ho1 ▸ h1
    have hw2 : eps < w2u p := ho2 ▸ h2
    have hw1ne : w1u p ≠ 0 := by
      intro h; rw [h] at hw1; exact absurd hw1 (not_lt.mpr eps_pos.le)
    have hw2ne : w2u p ≠ 0 := by
      intro h; rw [h] at hw2; exact absurd hw2 (not_lt.mpr eps_pos.le)
    have hcc1 : coeffs1 p = ⟨p.x10, B1u p, 0, 0⟩ := by rw [coeffs1, if_pos hk]
    have hcc2 : coeffs2 p = ⟨0, 0, p.x20, sw2u p⟩ := by rw [coeffs2, if_pos hk]
    refine ⟨?_, ?_, ?_, ?_⟩
    · rw [position_zero, hc1of, hcc1]
      dsimp only
      ring
    · rw [position_zero, hc2of, hcc2]
      dsimp only
      ring
    · rw [velocity_zero, hc1of, hcc1, ho1, ho2]
      dsimp only
      rw [B1u, if_pos hw1]
      field_simp
    · rw [velocity_zero, hc2of, hcc2, ho1, ho2]
      dsimp only
      rw [sw2u, if_pos hw2]
      field_simp
  · have hden : eps ≤ |denom p| := hbr.resolve_left hk
    have hdenne : denom p ≠ 0 := by
      intro h; rw [h, abs_zero] at hden
      exact absurd hden (not_le.mpr eps_pos)
    have ho1 : omega1 p = omega1c p := by rw [omega1, if_neg hk]
    have ho2 : omega2 p = omega2c p := by rw [omega2, if_neg hk]
    have hw1 : eps < omega1c p := ho1 ▸ h1
    have hw2 : eps < omega2c p := ho2 ▸ h2
    have hw1ne : omega1c p ≠ 0 := by
      intro h; rw [h] at hw1; exact absurd hw1 (not_lt.mpr eps_pos.le)
    have hw2ne : omega2c p ≠ 0 := by
      intro h; rw [h] at hw2; exact absurd hw2 (not_lt.mpr eps_pos.le)
    have hnd : ¬ |denom p| < eps := not_lt.mpr hden
    have hw1nn : 0 ≤ omega1c p := by rw [omega1c]; exact Real.sqrt_nonneg _
    have hno : ¬ (|denom p| < eps ∨ |omega1c p| < eps) := by
      push_neg
      exact ⟨hden, by rw [abs_of_nonneg hw1nn]; exact hw1.le⟩
    have hA1 : A1c p = (p.x20 - r2c p * p.x10) / denom p := by
      rw [A1c, if_neg hnd]
    have hA2 : A2c p = p.x10 - A1c p := by rw [A2c, if_neg hnd]
    have hB1 : B1c p = (p.v20 - r2c p * p.v10) / (omega1c p * denom p) := by
      rw [B1c, if_neg hno]
    have hB2 : B2c p = (p.v10 - omega1c p * B1c p) / omega2c p := by
      rw [B2c, if_neg hno, if_pos hw2]
    have hcc1 : coeffs1 p = ⟨A1c p, B1c p, A2c p, B2c p⟩ := by
      rw [coeffs1, if_neg hk]
    have hcc2 : coeffs2 p = ⟨r1c p * A1c p, r1c p * B1c p,
        r2c p * A2c p, r2c p * B2c p⟩ := by
      rw [coeffs2, if_neg hk]
    refine ⟨?_, ?_, ?_, ?_⟩
    · rw [position_zero, hc1of, hcc1]
      dsimp only
      rw [hA2]
      ring
    · rw [position_zero, hc2of, hcc2]
      dsimp only
      rw [hA2, hA1, denom] at *
      field_simp
      ring
    · rw [velocity_zero, hc1of, hcc1, ho1, ho2]
      dsimp only
      rw [hB2]
      field_simp
      ring
    · rw [velocity_zero, hc2of, hcc2, ho1, ho2]
      dsimp only
      rw [hB2, hB1, denom] at *
      field_simp
      ring

namespace Osc

/-- The symmetric configuration takes the coupled branch. -/
theorem symP_coupled : ¬ |symP.k2| < eps := by
  rw [symP, eps, abs_of_nonneg (by norm_num : (0:ℝ) ≤ 1 / 2)]
  norm_num

/-- Discriminant of the symmetric configuration. -/
theorem symP_disc : disc symP = 1 := by
  rw [disc, coefA, coefB, coefC2, symP]
  norm_num

/-- First eigenvalue of the symmetric configuration. -/
theorem symP_lam1 : lam1 symP = 1 := by
  rw [lam1, coefA, coefB, symP_disc, symP]
  norm_num

/-- Second eigenvalue of the symmetric configuration. -/
theorem symP_lam2 : lam2 symP = 2 := by
  rw [lam2, coefA, coefB, symP_disc, symP]
  norm_num

/-- First stored frequency of the symmetric configuration. -/
theorem symP_omega1 : omega1 symP = 1 := by
  rw [omega1, if_neg symP_coupled, omega1c, symP_lam1]
  norm_num

/-- Second stored frequency of the symmetric configuration. -/
theorem symP_omega2 : omega2 symP = Real.sqrt 2 := by
  rw [omega2, if_neg symP_coupled, omega2c, symP_lam2]
  norm_num

/-- First eigenvector ratio of the symmetric configuration. -/
theorem symP_r1 : r1c symP = 1 := by
  rw [r1c, symP_lam1, symP]
  norm_num

/-- Second eigenvector ratio of the symmetric configuration. -/
theorem symP_r2 : r2c symP = -1 := by
  rw [r2c, symP_lam2, symP]
  norm_num

/-- Ratio difference of the symmetric configuration. -/
theorem symP_denom : denom symP = 2 := by
  rw [denom, symP_r1, symP_r2]
  norm_num

/-- One is below the second symmetric frequency. -/
theorem symP_one_le_sqrt_two : (1:ℝ) ≤ Real.sqrt 2 := by
  rw [show (1:ℝ) = Real.sqrt 1 from (Real.sqrt_one).symm]
  exact Real.sqrt_le_sqrt (by norm_num)

end Osc

/-- Witness for the amended C2 at the symmetric configuration. -/
theorem claim2_initial_conditions_witness :
    (eps < omega1 symP ∧ eps < omega2 symP ∧
        (|symP.k2| < eps ∨ eps ≤ |denom symP|)) ∧
      (position symP 1 0 = symP.x10 ∧ position symP 2 0 = symP.x20 ∧
        velocity symP 1 0 = symP.v10 ∧ velocity symP 2 0 = symP.v20) := by
  have he1 : eps < omega1 symP := by
    rw [symP_omega1, eps]; norm_num
  have he2 : eps < omega2 symP := by
    rw [symP_omega2]
    calc eps < 1 := by rw [eps]; norm_num
      _ ≤ Real.sqrt 2 := symP_one_le_sqrt_two
  have hd : |symP.k2| < eps ∨ eps ≤ |denom symP| := by
    refine Or.inr ?_
    rw [symP_denom, abs_of_nonneg (by norm_num : (0:ℝ) ≤ 2), eps]
    norm_num
  exact ⟨⟨he1, he2, hd⟩, claim2_initial_conditions symP he1 he2 hd⟩

/-- Counterexample to C2 as stated: in the zero-coupling branch with a free
first mass (`k1 = 0`, so `w1u = 0`), the initial velocity `v10 = 1` is
dropped entirely and `velocity(1, 0) = 0`, an error of `1`, far beyond the
claimed `1e-9`. -/
theorem claim2_initial_conditions_counterexample :
    1e-9 < |velocity freeP 1 0 - freeP.v10| := by
  have hk : |freeP.k2| < eps := by
    rw [freeP, eps, abs_zero]
    norm_num
  have hw : w1u freeP = 0 := by
    rw [w1u, freeP]
    norm_num
  have hb1 : B1u freeP = 0 := by
    rw [B1u, if_neg]
    rw [hw]
    exact not_lt.mpr eps_pos.le
  have hcc1 : coeffsOf freeP 1 = ⟨freeP.x10, B1u freeP, 0, 0⟩ := by
    rw [coeffsOf, if_pos rfl, coeffs1, if_pos hk]
  rw [velocity_zero, hcc1, hb1]
  dsimp only
  rw [freeP]
  norm_num

namespace Osc

/-- The symmetric configuration is not in the degenerate `denom` case. -/
theorem symP_nondeg : ¬ |denom symP| < eps := by
  rw [symP_denom, abs_of_nonneg (by norm_num : (0:ℝ) ≤ 2), eps]
  norm_num

/-- Coupled-branch frequency `omega1c` of the symmetric configuration. -/
theorem symP_omega1c : omega1c symP = 1 := by
  rw [omega1c, symP_lam1]
  norm_num

/-- The symmetric configuration triggers neither fallback of the `B`
coefficients. -/
theorem symP_nofallback : ¬ (|denom symP| < eps ∨ |omega1c symP| < eps) := by
  push_neg
  refine ⟨not_lt.mp symP_nondeg, ?_⟩
  rw [symP_omega1c, abs_of_nonneg (by norm_num : (0:ℝ) ≤ 1), eps]
  norm_num

/-- Mode-1 cosine amplitude of the symmetric configuration. -/
theorem symP_A1 : A1c symP = 1 := by
  rw [A1c, if_neg symP_nondeg, symP_r2, symP_denom, symP]
  norm_num

/-- Mode-2 cosine amplitude of the symmetric configuration. -/
theorem symP_A2 : A2c symP = 0 := by
  rw [A2c, if_neg symP_nondeg, symP_A1, symP]
  norm_num

/-- Mode-1 sine amplitude of the symmetric configuration. -/
theorem symP_B1 : B1c symP = 0 := by
  rw [B1c, if_neg symP_nofallback, symP_r2, symP]
  norm_num

/-- Mode-2 sine amplitude of the symmetric configuration. -/
theorem symP_B2 : B2c symP = 0 := by
  rw [B2c, if_neg symP_nofallback, symP_B1, symP_omega1c, symP]
  norm_num

/-- The in-phase symmetric configuration moves as a pure cosine:
`position(1, t) = cos t`. -/
theorem symP_position_cos (t : ℝ) : position symP 1 t = Real.cos t := by
  rw [position, coeffsOf, if_pos rfl, coeffs1, if_neg symP_coupled]
  dsimp only
  rw [symP_A1, symP_A2, symP_B1, symP_B2, symP_omega1]
  ring_nf

/-- Position of mass 1 at time zero for the symmetric configuration. -/
theorem symP_position0 : position symP 1 0 = 1 := by
  rw [symP_position_cos, Real.cos_zero]

/-- The bisection refinement never leaves its initial bracket. -/
theorem bisect_mem (f : ℝ → ℝ) (tol : ℝ) :
    ∀ (n : ℕ) (lo hi pF : ℝ), lo ≤ hi →
      lo ≤ bisect f tol n lo hi pF ∧ bisect f tol n lo hi pF ≤ hi := by
  intro n
  induction n with
  | zero =>
    intro lo hi pF hle
    rw [bisect]
    constructor <;> linarith
  | succ n ih =>
    intro lo hi pF hle
    rw [bisect]
    split_ifs with h1 h2
    · constructor <;> linarith
    · obtain ⟨ha, hb⟩ := ih lo ((lo + hi) / 2) pF (by linarith)
      exact ⟨ha, by linarith⟩
    · obtain ⟨ha, hb⟩ := ih ((lo + hi) / 2) hi (f ((lo + hi) / 2)) (by linarith)
      exact ⟨by linarith, hb⟩

/-- Any time returned by the coarse scan lies in `[tMin, tMax]` (given a
positive step, with the invariant that the previous sample lies in the
window below the loop variable). -/
theorem scan_result_mem (f : ℝ → ℝ) (tol tMax dt tMin : ℝ) (hdt : 0 < dt) :
    ∀ (n : ℕ) (t pT pF r : ℝ), tMin ≤ pT → pT ≤ tMax → pT ≤ t →
      scanAux f tol tMax dt n t pT pF = some (some r) →
      tMin ≤ r ∧ r ≤ tMax := by
  intro n
  induction n with
  | zero =>
    intro t pT pF r _ _ _ h
    rw [scanAux] at h
    exact absurd h (by simp)
  | succ n ih =>
    intro t pT pF r h1 h2 h3 h
    rw [scanAux] at h
    split_ifs at h with hle htol hsig hbrk
    · obtain rfl : min t tMax = r := by injection h with h'; injection h'
      exact ⟨le_min (le_trans h1 h3) (le_trans h1 h2), min_le_right _ _⟩
    · obtain rfl : bisect f tol 60 pT (min t tMax) pF = r := by
        injection h with h'; injection h'
      obtain ⟨ha, hb⟩ :=
        bisect_mem f tol 60 pT (min t tMax) pF (le_min h3 h2)
      exact ⟨le_trans h1 ha, le_trans hb (min_le_right _ _)⟩
    · exact absurd h (by simp)
    · exact ih (t + dt) (min t tMax) (f (min t tMax)) r
        (le_min (le_trans h1 h3) (le_trans h1 h2)) (min_le_right _ _)
        (le_trans (min_le_left _ _) (by linarith)) h
    · exact absurd h (by simp)

/-- Given a positive step, the coarse scan finishes as soon as the loop
variable has passed `tMax + dt/2`, which enough fuel guarantees. -/
theorem scan_halts (f : ℝ → ℝ) (tol tMax dt : ℝ) :
    ∀ (n : ℕ) (t pT pF : ℝ), tMax + dt * 0.5 < t + n * dt →
      ∃ r, scanAux f tol tMax dt (n + 1) t pT pF = some r := by
  intro n
  induction n with
  | zero =>
    intro t pT pF h
    refine ⟨none, ?_⟩
    rw [scanAux, if_neg]
    push_cast at h
    linarith
  | succ n ih =>
    intro t pT pF h
    rw [scanAux]
    by_cases hle : t ≤ tMax + dt * 0.5
    · rw [if_pos hle]
      by_cases h1 : |f (min t tMax)| < tol
      · refine ⟨some (min t tMax), ?_⟩
        rw [if_pos h1]
      · rw [if_neg h1]
        by_cases h2 : pF * f (min t tMax) < 0
        · refine ⟨some (bisect f tol 60 pT (min t tMax) pF), ?_⟩
          rw [if_pos h2]
        · rw [if_neg h2]
          by_cases h3 : tMax ≤ min t tMax
          · refine ⟨none, ?_⟩
            rw [if_pos h3]
          · rw [if_neg h3]
            apply ih
            push_cast at h ⊢
            linarith
    · refine ⟨none, ?_⟩
      rw [if_neg hle]

end Osc

/-- Claim C9, amended: the coarse scan of `firstTimeTo` terminates whenever
the caller-supplied step `dt` is positive (the bisection and mediant loops
are bounded by construction); for `dt ≤ 0` it can run forever, see the
counterexample. -/
theorem claim9_scan_terminates_for_positive_dt (p : Params) (mass : ℕ)
    (q : String) (target tMin tMax tol dt : ℝ) (hdt : 0 < dt) :
    FirstTimeToTerminates p mass q target tMin tMax dt tol := by
  by_cases h0 : |quantityF p mass q tMin - target| < tol
  · exact ⟨some tMin, 0, by rw [firstTimeToFuel, if_pos h0]⟩
  · obtain ⟨n, hn⟩ :=
      exists_nat_gt ((tMax + dt * 0.5 - tMin - dt) / dt)
    have hn' : tMax + dt * 0.5 < (tMin + dt) + n * dt := by
      rw [div_lt_iff₀ hdt] at hn
      linarith
    obtain ⟨r, hr⟩ :=
      scan_halts (fun t => quantityF p mass q t - target) tol tMax dt n
        (tMin + dt) tMin (quantityF p mass q tMin - target) hn'
    exact ⟨r, n + 1, by rw [firstTimeToFuel, if_neg h0]; exact hr⟩

/-- Witness for the amended C9 at a concrete configuration and options. -/
theorem claim9_scan_terminates_for_positive_dt_witness :
    (0:ℝ) < 1 ∧ FirstTimeToTerminates symP 1 "x" 0 0 1 1 (1e-9) :=
  ⟨by norm_num,
    claim9_scan_terminates_for_positive_dt symP 1 "x" 0 0 1 (1e-9) 1
      (by norm_num)⟩

namespace Osc

/-- With `dt = 0` the scan state never changes: whenever the sample value at
the stuck point is `1` (so neither the tolerance test nor a sign change can
fire, and `tMax = 1` is never reached from `t = 0`), no amount of fuel
finishes the loop. -/
theorem scan_stuck (f : ℝ → ℝ) (hf : f 0 = 1) :
    ∀ n : ℕ, scanAux f (1e-9) 1 0 n 0 0 1 = none := by
  intro n
  induction n with
  | zero => rw [scanAux]
  | succ n ih =>
    rw [scanAux, if_pos (by norm_num : (0:ℝ) ≤ 1 + 0 * 0.5)]
    rw [show min (0:ℝ) 1 = 0 from min_eq_left (by norm_num), hf]
    rw [if_neg (by norm_num : ¬ |(1:ℝ)| < 1e-9)]
    rw [if_neg (by norm_num : ¬ (1:ℝ) * 1 < 0)]
    rw [if_neg (by norm_num : ¬ (1:ℝ) ≤ 0)]
    rw [add_zero]
    exact ih

end Osc

/-- Counterexample to C9 as stated: with the caller-supplied options
`tMin = 0, tMax = 1, dt = 0` the coarse scan of `firstTimeTo` never
terminates (the loop variable never advances and no exit condition can
fire), so the loops are not bounded for every input. -/
theorem claim9_scan_terminates_counterexample :
    ¬ FirstTimeToTerminates symP 1 "x" 0 0 1 0 (1e-9) := by
  have hq0 : quantityF symP 1 "x" 0 - 0 = 1 := by
    rw [quantityF, if_pos rfl, symP_position0]
    ring
  rintro ⟨r, fuel, hr⟩
  rw [firstTimeToFuel] at hr
  rw [if_neg (by rw [hq0]; norm_num)] at hr
  rw [add_zero, hq0] at hr
  rw [scan_stuck (fun t => quantityF symP 1 "x" t - 0) hq0 fuel] at hr
  exact Option.noConfusion hr

/-- Claim C3, amended: any time returned by `firstTimeTo` lies inside the
search window `[tMin, tMax]` (for `dt > 0` and `tMin ≤ tMax`); the returned
time is not in general the earliest in-tolerance time, and a root can be
missed entirely, see the counterexample. -/
theorem claim3_returned_time_in_window (p : Params) (mass : ℕ) (q : String)
    (target tMin tMax dt tol : ℝ) (fuel : ℕ) (r : ℝ)
    (hdt : 0 < dt) (hwin : tMin ≤ tMax)
    (hr : firstTimeToFuel p mass q target tMin tMax dt tol fuel =
      some (some r)) :
    tMin ≤ r ∧ r ≤ tMax := by
  rw [firstTimeToFuel] at hr
  split_ifs at hr with h0
  · obtain rfl : tMin = r := by injection hr with h'; injection h'
    exact ⟨le_refl _, hwin⟩
  · exact scan_result_mem (fun t => quantityF p mass q t - target) tol tMax dt
      tMin hdt fuel (tMin + dt) tMin _ r (le_refl _) hwin (by linarith) hr

namespace Osc

/-- Concrete run of `firstTimeTo` on the pure-cosine symmetric mode with a
single coarse step spanning the whole window `[0, π]`: the scan brackets the
sign change of `cos` and the first bisection midpoint `π/2` is an exact root,
so `π/2` is returned. -/
theorem ftt_symP_pi :
    firstTimeToFuel symP 1 "x" 0 0 Real.pi (2 * Real.pi) (1e-9) 2 =
      some (some (Real.pi / 2)) := by
  have hq : ∀ t : ℝ, quantityF symP 1 "x" t - 0 = Real.cos t := by
    intro t
    rw [quantityF, if_pos rfl, symP_position_cos]
    ring
  rw [firstTimeToFuel,
    if_neg (show ¬ |quantityF symP 1 "x" 0 - 0| < 1e-9 by
      rw [hq 0, Real.cos_zero]; norm_num)]
  rw [hq 0, Real.cos_zero, zero_add]
  rw [show (2:ℕ) = 1 + 1 from rfl, scanAux]
  rw [if_pos (show (2 * Real.pi : ℝ) ≤ Real.pi + 2 * Real.pi * 0.5 from
    le_of_eq (by ring))]
  rw [min_eq_right (by linarith [Real.pi_pos] : (Real.pi:ℝ) ≤ 2 * Real.pi)]
  simp only [hq]
  rw [Real.cos_pi]
  rw [if_neg (by norm_num : ¬ |(-1:ℝ)| < 1e-9)]
  rw [if_pos (by norm_num : (1:ℝ) * -1 < 0)]
  rw [show (60:ℕ) = 59 + 1 from rfl, bisect]
  rw [show ((0:ℝ) + Real.pi)/2 = Real.pi/2 from by ring, Real.cos_pi_div_two]
  rw [if_pos (by norm_num : |(0:ℝ)| < 1e-9)]

end Osc

/-- Counterexample to C3 as stated: on the pure-cosine mode with window
`[0, π]`, step `2π` and tolerance `1e-9`, `firstTimeTo` returns `π/2`, yet
`π/2 - 1e-10` is an earlier time in the window at which the position is
within tolerance of the target, so the returned time is not the earliest. -/
theorem claim3_earliest_counterexample :
    FirstTimeToReturns symP 1 "x" 0 0 Real.pi (2 * Real.pi) (1e-9)
        (some (Real.pi / 2)) ∧
      0 ≤ Real.pi / 2 - 1e-10 ∧ Real.pi / 2 - 1e-10 ≤ Real.pi ∧
      |position symP 1 (Real.pi / 2 - 1e-10) - 0| < 1e-9 ∧
      Real.pi / 2 - 1e-10 < Real.pi / 2 := by
  refine ⟨⟨2, ftt_symP_pi⟩, by linarith [Real.pi_gt_three],
    by linarith [Real.pi_gt_three], ?_, by norm_num⟩
  rw [symP_position_cos, sub_zero, Real.cos_pi_div_two_sub]
  rw [abs_of_nonneg (Real.sin_nonneg_of_nonneg_of_le_pi (by norm_num)
    (by linarith [Real.pi_gt_three]))]
  calc Real.sin 1e-10 < 1e-10 := Real.sin_lt (by norm_num)
    _ < 1e-9 := by norm_num

/-- Witness for the amended C3: an immediate tolerance hit at `tMin = 0`
returns `0`, which the amended theorem places inside `[0, 1]`. -/
theorem claim3_returned_time_in_window_witness :
    (0:ℝ) < 1 ∧ (0:ℝ) ≤ 1 ∧
      firstTimeToFuel symP 1 "x" 1 0 1 1 (1e-9) 5 = some (some 0) ∧
      ((0:ℝ) ≤ 0 ∧ (0:ℝ) ≤ 1) := by
  have heval : firstTimeToFuel symP 1 "x" 1 0 1 1 (1e-9) 5 = some (some 0) := by
    rw [firstTimeToFuel, if_pos]
    rw [quantityF, if_pos rfl, symP_position0]
    norm_num
  exact ⟨by norm_num, by norm_num, heval,
    claim3_returned_time_in_window symP 1 "x" 1 0 1 1 (1e-9) 5 0 (by norm_num)
      (by norm_num) heval⟩

namespace Frac

/-!
Embedding of the two rational-approximation modules.  JavaScript numbers
that reach these functions are IEEE floats, every finite one of which is a
rational number, so the finite input domain is embedded as `ℚ` (keeping the
module executable); the non-finite inputs get explicit constructors.
-/

/-- A JavaScript number argument: a finite (rational) value, one of the two
infinities, or NaN. -/
inductive JsNum where
  | fin (x : ℚ)
  | posInf
  | negInf
  | nan
deriving DecidableEq

/-- A numerator as produced by `reduceFraction` (src/fraction.js): an integer
or an infinity sentinel. -/
inductive FracNum where
  | int (n : ℤ)
  | posInf
  | negInf
deriving DecidableEq

/-- The `{num, den}` record returned by src/fraction.js. -/
structure JsFrac where
  num : FracNum
  den : ℤ
deriving DecidableEq

/-- Euclid loop shared by both `gcd` functions (src/fraction.js lines 13-22,
fractions.js lines 7-16), with explicit fuel; the second argument strictly
decreases, so fuel `b + 1` always suffices. -/
def gcdLoop : ℕ → ℕ → ℕ → ℕ
  | 0, a, _ => a
  | f + 1, a, b => if b = 0 then a else gcdLoop f b (a % b)

/-- The while-loop of the JS `gcd` functions on (already rounded,
absolute-valued) inputs. -/
def jsGcd (a b : ℕ) : ℕ := gcdLoop (b + 1) a b

/-- The embedded Euclid loop computes the mathematical gcd. -/
theorem gcdLoop_eq_gcd : ∀ (f a b : ℕ), b < f → gcdLoop f a b = Nat.gcd a b := by
  intro f
  induction f with
  | zero => intro a b h; exact absurd h (Nat.not_lt_zero b)
  | succ f ih =>
    intro a b h
    rw [gcdLoop]
    by_cases hb : b = 0
    · rw [if_pos hb, hb, Nat.gcd_zero_right]
    · rw [if_neg hb]
      have hblt : 0 < b := Nat.pos_of_ne_zero hb
      have hmod : a % b < b := Nat.mod_lt a hblt
      rw [ih b (a % b) (by omega)]
      rw [Nat.gcd_comm b (a % b), ← Nat.gcd_rec b a, Nat.gcd_comm b a]

/-- The JS gcd equals the mathematical gcd. -/
theorem jsGcd_eq_gcd (a b : ℕ) : jsGcd a b = Nat.gcd a b :=
  gcdLoop_eq_gcd (b + 1) a b (Nat.lt_succ_self b)

/-- src/fraction.js `gcd` returns `a || 1` after the loop (lines 13-22). -/
def gcdF (a b : ℕ) : ℕ := if jsGcd a b = 0 then 1 else jsGcd a b

/-- `reduceFraction(num, den)` (src/fraction.js lines 31-39) on integer
arguments (the only values its callers pass, on which `Math.round` is the
identity). -/
def reduceFraction (num den : ℤ) : JsFrac :=
  if den = 0 then (if 0 ≤ num then ⟨.posInf, 1⟩ else ⟨.negInf, 1⟩)
  else if num = 0 then ⟨.int 0, 1⟩
  else
    let sign : ℤ := if (num < 0) ≠ (den < 0) then -1 else 1
    let a := num.natAbs
    let b := den.natAbs
    let g := gcdF a b
    ⟨.int (sign * ((a / g : ℕ) : ℤ)), ((b / g : ℕ) : ℤ)⟩

/-- `Math.round` on a nonnegative float: floor of `x + 1/2` (this is exact
JS semantics, which rounds half toward positive infinity). -/
def jsRound (q : ℚ) : ℤ := ⌊q + 1 / 2⌋

/-- Mediant of the two bracketing fractions (`med_n`, `med_d`). -/
def med (lo hi : ℕ × ℕ) : ℕ × ℕ := (lo.1 + hi.1, lo.2 + hi.2)

/-- Value of a numerator/denominator pair as a rational. -/
def valAt (fr : ℕ × ℕ) : ℚ := (fr.1 : ℚ) / (fr.2 : ℚ)

/-- Absolute error of a pair against the target value. -/
def errAt (ax : ℚ) (fr : ℕ × ℕ) : ℚ := |ax - valAt fr|

/-- The Stern-Brocot loop of `decimalToFraction` (src/fraction.js lines
62-83), with fuel standing for the remaining iterations of the capped `for`
loop (the source cap is 200).  It breaks when the mediant denominator
exceeds the bound, tracks the best fraction seen, breaks once the error
drops below `tol`, and otherwise narrows the bracket toward `ax`. -/
def sbLoopF (ax tol : ℚ) (maxDen : ℕ) :
    ℕ → ℕ × ℕ → ℕ × ℕ → ℕ × ℕ → ℚ → ℕ × ℕ
  | 0, _, _, best, _ => best
  | f + 1, lo, hi, best, bestErr =>
    if maxDen < (med lo hi).2 then best
    else
      let err := errAt ax (med lo hi)
      let best' := if err < bestErr then med lo hi else best
      let bestErr' := if err < bestErr then err else bestErr
      if err < tol then best'
      else if valAt (med lo hi) < ax then
        sbLoopF ax tol maxDen f (med lo hi) hi best' bestErr'
      else sbLoopF ax tol maxDen f lo (med lo hi) best' bestErr'

/-- `decimalToFraction(x, maxDen, tol)` (src/fraction.js lines 49-86); the
source defaults are `maxDen = 10000`, `tol = 1e-9`.  Note `NaN > 0` is false
in JS, so NaN maps to the negative-infinity sentinel. -/
def decimalToFraction (x : JsNum) (maxDen : ℕ) (tol : ℚ) : JsFrac :=
  match x with
  | .posInf => ⟨.posInf, 1⟩
  | .negInf => ⟨.negInf, 1⟩
  | .nan => ⟨.negInf, 1⟩
  | .fin v =>
    if |v| < tol then ⟨.int 0, 1⟩
    else
      let sign : ℤ := if v < 0 then -1 else 1
      let ax := |v|
      let b0 : ℕ × ℕ := ((jsRound ax).toNat, 1)
      let best := sbLoopF ax tol maxDen 200 (0, 1) (1, 0) b0 (errAt ax b0)
      reduceFraction (sign * (best.1 : ℤ)) (best.2 : ℤ)

/-- `reduce(frac)` (fractions.js lines 21-29): `d = 0` is returned as-is
(with `d = 0`!), otherwise divide by the gcd and normalise the sign into the
numerator. -/
def reduceJS (fr : ℤ × ℤ) : ℤ × ℤ :=
  if fr.2 = 0 then fr
  else
    let g : ℤ := (jsGcd fr.1.natAbs fr.2.natAbs : ℕ)
    let rn := fr.1 / g
    let rd := fr.2 / g
    if rd < 0 then (-rn, -rd) else (rn, rd)

/-- The Stern-Brocot loop of `toFraction` (fractions.js lines 64-86), cap
10000: no tolerance break, but an exact-equality break; the best update
happens before the break test. -/
def sbLoopT (ax : ℚ) (maxDen : ℕ) :
    ℕ → ℕ × ℕ → ℕ × ℕ → ℕ × ℕ → ℚ → ℕ × ℕ
  | 0, _, _, best, _ => best
  | f + 1, lo, hi, best, bestErr =>
    if maxDen < (med lo hi).2 then best
    else
      let err := errAt ax (med lo hi)
      let best' := if err < bestErr then med lo hi else best
      let bestErr' := if err < bestErr then err else bestErr
      if valAt (med lo hi) < ax then
        sbLoopT ax maxDen f (med lo hi) hi best' bestErr'
      else if ax < valAt (med lo hi) then
        sbLoopT ax maxDen f lo (med lo hi) best' bestErr'
      else best'

/-- `toFraction(x, maxDen)` (fractions.js lines 36-89); the source default is
`maxDen = 1000`.  Non-finite inputs and `|x| > 1e10` return `null` (`none`);
zero returns `0/1` before the finiteness test; integers short-circuit. -/
def toFraction (x : JsNum) (maxDen : ℕ) : Option (ℤ × ℤ) :=
  match x with
  | .posInf => none
  | .negInf => none
  | .nan => none
  | .fin v =>
    if v = 0 then some (0, 1)
    else if ¬ (|v| ≤ 1e10) then none
    else
      let negative := v < 0
      let ax := |v|
      if ax = (⌊ax⌋ : ℚ) then
        some ((if negative then -(jsRound ax) else jsRound ax), 1)
      else
        let ip : ℕ := ⌊ax⌋.toNat
        let lo : ℕ × ℕ := (ip, 1)
        let hi : ℕ × ℕ := (ip + 1, 1)
        let b0 := if errAt ax hi < errAt ax lo then hi else lo
        let e0 := if errAt ax hi < errAt ax lo then errAt ax hi else errAt ax lo
        let best := sbLoopT ax maxDen 10000 lo hi b0 e0
        some (reduceJS ((if negative then -(best.1 : ℤ) else (best.1 : ℤ)),
          (best.2 : ℤ)))

end Frac

open Frac

/-- Counterexample to C8 as stated: the fractions.js approximator returns
`null` (no value) for a non-finite input instead of a signed-infinity
sentinel. -/
theorem claim8_sentinel_counterexample :
    toFraction JsNum.posInf 1000 = none ∧
      toFraction JsNum.negInf 1000 = none ∧
      toFraction JsNum.nan 1000 = none :=
  ⟨rfl, rfl, rfl⟩

/-- Claim C8, amended: the src/fraction.js approximator `decimalToFraction`
does map every non-finite input to a signed-infinity sentinel (NaN to
`-Infinity/1`, since `NaN > 0` is false); the fractions.js `toFraction`
instead returns `null`. -/
theorem claim8_sentinel_amended (maxDen : ℕ) (tol : ℚ) :
    decimalToFraction JsNum.posInf maxDen tol = ⟨FracNum.posInf, 1⟩ ∧
      decimalToFraction JsNum.negInf maxDen tol = ⟨FracNum.negInf, 1⟩ ∧
      decimalToFraction JsNum.nan maxDen tol = ⟨FracNum.negInf, 1⟩ ∧
      toFraction JsNum.posInf maxDen = none ∧
      toFraction JsNum.negInf maxDen = none ∧
      toFraction JsNum.nan maxDen = none :=
  ⟨rfl, rfl, rfl, rfl, rfl, rfl⟩

namespace Frac

/-- With a nonzero denominator, `reduceFraction` yields a finite, fully
reduced fraction with positive denominator, zero being canonical `0/1`. -/
theorem reduceFraction_inv (num den : ℤ) (h : den ≠ 0) :
    ∃ n d : ℤ, reduceFraction num den = ⟨.int n, d⟩ ∧
      0 < d ∧ Int.gcd n d = 1 ∧ (n = 0 → d = 1) := by
  rw [reduceFraction, if_neg h]
  by_cases h0 : num = 0
  · rw [if_pos h0]
    exact ⟨0, 1, rfl, by norm_num, by decide, fun _ => rfl⟩
  · rw [if_neg h0]
    have ha : 0 < num.natAbs := Int.natAbs_pos.mpr h0
    have hb : 0 < den.natAbs := Int.natAbs_pos.mpr h
    have hgpos : 0 < Nat.gcd num.natAbs den.natAbs :=
      Nat.gcd_pos_of_pos_left _ ha
    have hgf : gcdF num.natAbs den.natAbs = Nat.gcd num.natAbs den.natAbs := by
      rw [gcdF, jsGcd_eq_gcd, if_neg (Nat.pos_iff_ne_zero.mp hgpos)]
    refine ⟨_, _, rfl, ?_, ?_, ?_⟩
    · rw [hgf]
      exact_mod_cast Nat.div_pos
        (Nat.le_of_dvd hb (Nat.gcd_dvd_right _ _)) hgpos
    · rw [hgf, Int.gcd]
      have hsign : ∀ s : ℤ, (s = -1 ∨ s = 1) →
          (s * ((num.natAbs / Nat.gcd num.natAbs den.natAbs : ℕ) : ℤ)).natAbs =
            num.natAbs / Nat.gcd num.natAbs den.natAbs := by
        rintro s (rfl | rfl)
        · rw [neg_one_mul, Int.natAbs_neg, Int.natAbs_ofNat]
        · rw [one_mul, Int.natAbs_ofNat]
      rw [hsign _ (by split_ifs <;> simp), Int.natAbs_ofNat]
      exact Nat.coprime_div_gcd_div_gcd hgpos
    · intro hn
      exfalso
      rcases mul_eq_zero.mp hn with hs | hz
      · revert hs; split_ifs <;> norm_num
      · have hdiv : 0 < num.natAbs / gcdF num.natAbs den.natAbs := by
          rw [hgf]
          exact Nat.div_pos (Nat.le_of_dvd ha (Nat.gcd_dvd_left _ _)) hgpos
        exact absurd (Int.ofNat_eq_zero.mp hz) (Nat.pos_iff_ne_zero.mp hdiv)

/-- The `decimalToFraction` loop keeps the best denominator positive. -/
theorem sbLoopF_den_pos (ax tol : ℚ) (N : ℕ) :
    ∀ (f : ℕ) (lo hi best : ℕ × ℕ) (be : ℚ),
      0 < lo.2 + hi.2 → 0 < best.2 →
      0 < (sbLoopF ax tol N f lo hi best be).2 := by
  intro f
  induction f with
  | zero => intro lo hi best be _ hb; rw [sbLoopF]; exact hb
  | succ f ih =>
    intro lo hi best be hs hb
    have hmed : 0 < (med lo hi).2 := hs
    simp only [sbLoopF]
    by_cases h1 : N < (med lo hi).2
    · rw [if_pos h1]; exact hb
    · rw [if_neg h1]
      have hbp' : 0 < (if errAt ax (med lo hi) < be then med lo hi else best).2 := by
        split_ifs
        exacts [hmed, hb]
      by_cases h2 : errAt ax (med lo hi) < tol
      · rw [if_pos h2]; exact hbp'
      · rw [if_neg h2]
        by_cases h3 : valAt (med lo hi) < ax
        · rw [if_pos h3]
          exact ih _ _ _ _ (by rw [med]; dsimp only; omega) hbp'
        · rw [if_neg h3]
          exact ih _ _ _ _ (by rw [med]; dsimp only; omega) hbp'

/-- The `toFraction` loop keeps the best denominator positive. -/
theorem sbLoopT_den_pos (ax : ℚ) (N : ℕ) :
    ∀ (f : ℕ) (lo hi best : ℕ × ℕ) (be : ℚ),
      0 < lo.2 + hi.2 → 0 < best.2 →
      0 < (sbLoopT ax N f lo hi best be).2 := by
  intro f
  induction f with
  | zero => intro lo hi best be _ hb; rw [sbLoopT]; exact hb
  | succ f ih =>
    intro lo hi best be hs hb
    have hmed : 0 < (med lo hi).2 := hs
    simp only [sbLoopT]
    by_cases h1 : N < (med lo hi).2
    · rw [if_pos h1]; exact hb
    · rw [if_neg h1]
      have hbp' : 0 < (if errAt ax (med lo hi) < be then med lo hi else best).2 := by
        split_ifs
        exacts [hmed, hb]
      by_cases h2 : valAt (med lo hi) < ax
      · rw [if_pos h2]
        exact ih _ _ _ _ (by rw [med]; dsimp only; omega) hbp'
      · rw [if_neg h2]
        by_cases h3 : ax < valAt (med lo hi)
        · rw [if_pos h3]
          exact ih _ _ _ _ (by rw [med]; dsimp only; omega) hbp'
        · rw [if_neg h3]
          exact hbp'

/-- With a positive denominator, `reduce` of fractions.js yields an equal,
fully reduced fraction with positive denominator no larger than the input,
zero being canonical `0/1`. -/
theorem reduceJS_spec (n d : ℤ) (hd : 0 < d) :
    ∃ n' d' : ℤ, reduceJS (n, d) = (n', d') ∧ 0 < d' ∧ d' ≤ d ∧
      (n' : ℚ) / (d' : ℚ) = (n : ℚ) / (d : ℚ) ∧
      Int.gcd n' d' = 1 ∧ (n' = 0 → d' = 1) := by
  have hgnat : 0 < Int.gcd n d := Int.gcd_pos_of_ne_zero_right n (ne_of_gt hd)
  have hcop : Int.gcd (n / (Int.gcd n d : ℤ)) (d / (Int.gcd n d : ℤ)) = 1 :=
    Int.gcd_div_gcd_div_gcd hgnat
  rw [reduceJS, if_neg (show ¬ (n, d).2 = 0 from ne_of_gt hd)]
  dsimp only
  have hgeq : ((jsGcd n.natAbs d.natAbs : ℕ) : ℤ) = (Int.gcd n d : ℤ) := by
    rw [jsGcd_eq_gcd]; rfl
  rw [hgeq]
  set g : ℤ := (Int.gcd n d : ℤ) with hgdef
  have hgpos : 0 < g := by rw [hgdef]; exact_mod_cast hgnat
  have hdvd_n : g ∣ n := Int.gcd_dvd_left
  have hdvd_d : g ∣ d := Int.gcd_dvd_right
  obtain ⟨k, hk⟩ := hdvd_d
  obtain ⟨j, hj⟩ := hdvd_n
  have hkv : d / g = k := by
    rw [hk, Int.mul_ediv_cancel_left _ (ne_of_gt hgpos)]
  have hjv : n / g = j := by
    rw [hj, Int.mul_ediv_cancel_left _ (ne_of_gt hgpos)]
  have hkpos : 0 < k := by
    by_contra hc
    push_neg at hc
    nlinarith [mul_nonpos_of_nonneg_of_nonpos hgpos.le hc]
  have hdpos : 0 < d / g := by rw [hkv]; exact hkpos
  rw [if_neg (not_lt.mpr hdpos.le)]
  refine ⟨n / g, d / g, rfl, hdpos, ?_, ?_, hcop, ?_⟩
  · exact Int.ediv_le_self g hd.le
  · rw [hjv, hkv]
    rw [show (n : ℚ) = (g : ℚ) * (j : ℚ) by exact_mod_cast congrArg Int.cast hj]
    rw [show (d : ℚ) = (g : ℚ) * (k : ℚ) by exact_mod_cast congrArg Int.cast hk]
    rw [mul_div_mul_left _ _ (show (g:ℚ) ≠ 0 by exact_mod_cast ne_of_gt hgpos)]
  · intro h0
    rw [hjv] at h0
    subst h0
    rw [mul_zero] at hj
    have hgd : g = d := by
      rw [hgdef, hj, Int.gcd_zero_left, Int.natAbs_of_nonneg hd.le]
    rw [hgd, Int.ediv_self (ne_of_gt hd)]

end Frac

namespace Frac

/-- Packaging of `reduceJS_spec` as used on the result of `toFraction`. -/
theorem toFraction_inv_aux (m : ℤ) (Y : ℕ) (hY : 0 < Y) (n d : ℤ)
    (h : reduceJS (m, (Y:ℤ)) = (n, d)) :
    0 < d ∧ Int.gcd n d = 1 ∧ (n = 0 → d = 1) := by
  obtain ⟨n', d', heq, hd', _, _, hgcd', hzero'⟩ :=
    reduceJS_spec m (Y:ℤ) (by exact_mod_cast hY)
  rw [heq, Prod.mk.injEq] at h
  obtain ⟨rfl, rfl⟩ := h
  exact ⟨hd', hgcd', hzero'⟩

end Frac

/-- Claim C7 (confirmed): every fraction value produced for a finite input by
either rational approximator, and by the reduce operations they use (on a
nonzero denominator), satisfies the Fraction invariant: positive denominator,
`gcd(|num|, den) = 1` (the sign carried by the numerator), and zero
represented canonically as `0/1`. -/
theorem claim7_fraction_invariant :
    (∀ (v tol : ℚ) (N : ℕ), ∃ n d : ℤ,
        decimalToFraction (.fin v) N tol = ⟨.int n, d⟩ ∧
          0 < d ∧ Int.gcd n d = 1 ∧ (n = 0 → d = 1)) ∧
      (∀ (v : ℚ) (N : ℕ) (n d : ℤ),
          toFraction (.fin v) N = some (n, d) →
            0 < d ∧ Int.gcd n d = 1 ∧ (n = 0 → d = 1)) ∧
      (∀ num den : ℤ, den ≠ 0 → ∃ n d : ℤ,
          reduceFraction num den = ⟨.int n, d⟩ ∧
            0 < d ∧ Int.gcd n d = 1 ∧ (n = 0 → d = 1)) := by
  refine ⟨?_, ?_, reduceFraction_inv⟩
  · intro v tol N
    simp only [decimalToFraction]
    split_ifs with h1 hs
    · exact ⟨0, 1, rfl, by norm_num, by decide, fun _ => rfl⟩
    all_goals
      apply reduceFraction_inv
    all_goals
      exact Int.natCast_ne_zero.mpr (Nat.pos_iff_ne_zero.mp
        (sbLoopF_den_pos |v| tol N 200 (0, 1) (1, 0)
          ((jsRound |v|).toNat, 1) (errAt |v| ((jsRound |v|).toNat, 1))
          (by norm_num) (by norm_num)))
  · intro v N n d hsome
    simp only [toFraction] at hsome
    split_ifs at hsome with h1 h2 h3
    · rw [Option.some_inj, Prod.mk.injEq] at hsome
      obtain ⟨rfl, rfl⟩ := hsome
      exact ⟨by norm_num, by decide, fun _ => rfl⟩
    all_goals
      first
        | (rw [Option.some_inj, Prod.mk.injEq] at hsome
           obtain ⟨rfl, rfl⟩ := hsome
           exact ⟨by norm_num, by simp [Int.gcd], fun _ => rfl⟩)
        | (refine toFraction_inv_aux _ _ ?_ n d (Option.some_inj.mp hsome)
           exact sbLoopT_den_pos _ _ _ _ _ _ _ (by norm_num) (by norm_num))

namespace Frac

/-- Concrete run of `toFraction` on `1/2`: the first mediant `1/2` is an
exact hit, and the loop breaks with best fraction `1/2`. -/
theorem toFraction_half : toFraction (.fin (1/2 : ℚ)) 1000 = some (1, 2) := by
  have habs : |(1/2 : ℚ)| = 1/2 := by norm_num
  have hfl : ⌊(1/2 : ℚ)⌋ = 0 := by norm_num
  simp only [toFraction, habs, hfl]
  rw [if_neg (by norm_num : ¬ (1/2 : ℚ) = 0)]
  rw [if_neg (by norm_num : ¬ ¬ ((1/2 : ℚ) ≤ 1e10))]
  rw [if_neg (by norm_num : ¬ (1/2 : ℚ) = ((0 : ℤ) : ℚ))]
  have htn : (0 : ℤ).toNat = 0 := rfl
  rw [htn]
  have herr : errAt (1/2 : ℚ) (0 + 1, 1) = 1/2 := by
    rw [errAt, valAt]
    norm_num
  have herr0 : errAt (1/2 : ℚ) (0, 1) = 1/2 := by
    rw [errAt, valAt]
    norm_num
  rw [herr, herr0, if_neg (lt_irrefl (1/2 : ℚ))]
  rw [show (10000:ℕ) = 9999 + 1 from rfl, sbLoopT]
  rw [if_neg (by rw [med]; norm_num : ¬ 1000 < (med ((0:ℕ), (1:ℕ)) (0 + 1, 1)).2)]
  have hmerr : errAt (1/2 : ℚ) (med (0, 1) (0 + 1, 1)) = 0 := by
    rw [errAt, valAt, med]
    norm_num
  have hmval : valAt (med (0, 1) (0 + 1, 1)) = 1/2 := by
    rw [valAt, med]
    norm_num
  rw [hmerr, hmval]
  norm_num [med, reduceJS, jsGcd, gcdLoop]

end Frac

/-- Witness for C7: a concrete reduce call with the nonzero-denominator
hypothesis discharged, and a concrete `toFraction` run with its equation
hypothesis discharged. -/
theorem claim7_fraction_invariant_witness :
    ((-9:ℤ) ≠ 0 ∧ ∃ n d : ℤ, reduceFraction 6 (-9) = ⟨.int n, d⟩ ∧
        0 < d ∧ Int.gcd n d = 1 ∧ (n = 0 → d = 1)) ∧
      (toFraction (.fin (1/2 : ℚ)) 1000 = some (1, 2) ∧
        (0 < (2:ℤ) ∧ Int.gcd 1 2 = 1 ∧ ((1:ℤ) = 0 → (2:ℤ) = 1))) :=
  ⟨⟨by decide, claim7_fraction_invariant.2.2 6 (-9) (by decide)⟩,
    ⟨toFraction_half,
      claim7_fraction_invariant.2.1 (1/2) 1000 1 2 toFraction_half⟩⟩

namespace Frac

/-- Tail of the `decimalToFraction (1/250)` trace: once the hi bracket has
reached `1/m` with `m ≥ 126`, the best is the current `1/m` and each further
iteration moves it to `1/(m+1)`, until the 200-iteration cap stops the loop
at `1/200`. -/
theorem sbF_tail : ∀ (f m : ℕ), 126 ≤ m → m + f = 200 →
    sbLoopF (1/250) (1e-9) 10000 f (0, 1) (1, m) (1, m)
      (1/(m:ℚ) - 1/250) = (1, 200) := by
  intro f
  induction f with
  | zero =>
    intro m h1 h2
    obtain rfl : m = 200 := by omega
    rw [sbLoopF]
  | succ f ih =>
    intro m h1 h2
    have hm199 : m ≤ 199 := by omega
    have hmQ : (126:ℚ) ≤ (m:ℚ) := by exact_mod_cast h1
    have hm250 : (m:ℚ) + 1 ≤ 250 := by
      have : m + 1 ≤ 250 := by omega
      exact_mod_cast this
    have hmpos : (0:ℚ) < (m:ℚ) := by linarith
    have hmed : med ((0:ℕ), (1:ℕ)) (1, m) = (1, m + 1) := by
      rw [med]
      simp [Nat.add_comm]
    simp only [sbLoopF]
    rw [hmed]
    have hval : valAt (1, m + 1) = 1/((m:ℚ)+1) := by
      rw [valAt]
      push_cast
      norm_num
    have herr : errAt (1/250) (1, m + 1) = 1/((m:ℚ)+1) - 1/250 := by
      rw [errAt, hval, abs_of_nonpos, neg_sub]
      rw [sub_nonpos]
      exact one_div_le_one_div_of_le (by linarith) hm250
    rw [if_neg (show ¬ 10000 < ((1:ℕ), m + 1).2 by dsimp only; omega)]
    rw [herr, hval]
    have hlt : 1/((m:ℚ)+1) - 1/250 < 1/(m:ℚ) - 1/250 := by
      have := one_div_lt_one_div_of_lt hmpos (lt_add_one (m:ℚ))
      linarith
    rw [if_pos hlt, if_pos hlt]
    have h200 : (m:ℚ) + 1 ≤ 200 := by
      have : m + 1 ≤ 200 := by omega
      exact_mod_cast this
    have htol : ¬ (1/((m:ℚ)+1) - 1/250 < 1e-9) := by
      have h1' : (1:ℚ)/200 ≤ 1/((m:ℚ)+1) :=
        one_div_le_one_div_of_le (by linarith) h200
      norm_num at h1' ⊢
      linarith
    rw [if_neg htol]
    have hvlt : ¬ (1/((m:ℚ)+1) < 1/250) := by
      have : (1:ℚ)/250 ≤ 1/((m:ℚ)+1) :=
        one_div_le_one_div_of_le (by linarith) hm250
      linarith
    rw [if_neg hvlt]
    have := ih (m + 1) (by omega) (by omega)
    convert this using 2
    push_cast
    ring

end Frac

namespace Frac

/-- Head of the `decimalToFraction (1/250)` trace: while the hi bracket is at
`1/m` with `m ≤ 125`, the best is still the initial `0/1` with error `1/250`;
at `m = 125` the next mediant `1/126` becomes the first improvement. -/
theorem sbF_head : ∀ (f m : ℕ), 1 ≤ m → m ≤ 125 → m + f = 200 →
    sbLoopF (1/250) (1e-9) 10000 f (0, 1) (1, m) (0, 1) (1/250) = (1, 200) := by
  intro f
  induction f with
  | zero =>
    intro m h1 h2 h3
    omega
  | succ f ih =>
    intro m h1 h2 h3
    have hmQ : (1:ℚ) ≤ (m:ℚ) := by exact_mod_cast h1
    have hm126 : (m:ℚ) + 1 ≤ 126 := by
      have : m + 1 ≤ 126 := by omega
      exact_mod_cast this
    have hmed : med ((0:ℕ), (1:ℕ)) (1, m) = (1, m + 1) := by
      rw [med]
      simp [Nat.add_comm]
    simp only [sbLoopF]
    rw [hmed]
    have hval : valAt (1, m + 1) = 1/((m:ℚ)+1) := by
      rw [valAt]
      push_cast
      norm_num
    have herr : errAt (1/250) (1, m + 1) = 1/((m:ℚ)+1) - 1/250 := by
      rw [errAt, hval, abs_of_nonpos, neg_sub]
      rw [sub_nonpos]
      exact one_div_le_one_div_of_le (by linarith) (by linarith)
    rw [if_neg (show ¬ 10000 < ((1:ℕ), m + 1).2 by dsimp only; omega)]
    rw [herr, hval]
    have htol : ¬ (1/((m:ℚ)+1) - 1/250 < 1e-9) := by
      have h1' : (1:ℚ)/126 ≤ 1/((m:ℚ)+1) :=
        one_div_le_one_div_of_le (by linarith) hm126
      norm_num at h1' ⊢
      linarith
    have hvlt : ¬ (1/((m:ℚ)+1) < 1/250) := by
      have : (1:ℚ)/250 ≤ 1/((m:ℚ)+1) :=
        one_div_le_one_div_of_le (by linarith) (by linarith)
      linarith
    by_cases hm : m = 125
    · subst hm
      have hbe : (1:ℚ)/((125:ℕ):ℚ) + -(1/250) < 0 + 1/250 → True := fun _ => trivial
      rw [if_pos (show 1/(((125:ℕ):ℚ)+1) - 1/250 < 1/250 by norm_num)]
      rw [if_pos (show 1/(((125:ℕ):ℚ)+1) - 1/250 < 1/250 by norm_num)]
      rw [if_neg htol, if_neg hvlt]
      have := sbF_tail f 126 (by omega) (by omega)
      convert this using 2
      push_cast
      norm_num
    · have hblt : ¬ (1/((m:ℚ)+1) - 1/250 < 1/250) := by
        have hm124 : (m:ℚ) + 1 ≤ 125 := by
          have : m + 1 ≤ 125 := by omega
          exact_mod_cast this
        have : (1:ℚ)/125 ≤ 1/((m:ℚ)+1) :=
          one_div_le_one_div_of_le (by linarith) hm124
        norm_num at this ⊢
        linarith
      rw [if_neg hblt, if_neg hblt, if_neg htol, if_neg hvlt]
      exact ih (m + 1) (by omega) (by omega) (by omega)

/-- Start of the `decimalToFraction (1/250)` trace: the first mediant is
`1/1`, which does not improve on the initial best `0/1`. -/
theorem sbF_init :
    sbLoopF (1/250) (1e-9) 10000 200 (0, 1) (1, 0) (0, 1) (1/250) = (1, 200) := by
  have hmed : med ((0:ℕ), (1:ℕ)) (1, 0) = (1, 1) := rfl
  have herr : errAt (1/250) ((1:ℕ), (1:ℕ)) = 249/250 := by
    rw [errAt, valAt]
    norm_num
  have hval : valAt ((1:ℕ), (1:ℕ)) = 1 := by
    rw [valAt]
    norm_num
  rw [show (200:ℕ) = 199 + 1 from rfl, sbLoopF]
  simp only [hmed, herr, hval]
  rw [if_neg (show ¬ 10000 < ((1:ℕ), (1:ℕ)).2 by dsimp only; omega)]
  rw [if_neg (show ¬ (249/250 : ℚ) < 1/250 by norm_num)]
  rw [if_neg (show ¬ (249/250 : ℚ) < 1/250 by norm_num)]
  rw [if_neg (show ¬ (249/250 : ℚ) < 1e-9 by norm_num)]
  rw [if_neg (show ¬ (1 : ℚ) < 1/250 by norm_num)]
  exact sbF_head 199 1 (by omega) (by omega) (by omega)

/-- The 200-iteration cap of `decimalToFraction` truncates the search for
`1/250` (whose Stern-Brocot path has length 250) and the function returns
`1/200`. -/
theorem decimalToFraction_one_div_250 :
    decimalToFraction (.fin (1/250 : ℚ)) 10000 (1e-9) = ⟨.int 1, 200⟩ := by
  have habs : |(1/250 : ℚ)| = 1/250 := by norm_num
  have hround : jsRound (1/250 : ℚ) = 0 := by
    rw [jsRound]
    norm_num
  simp only [decimalToFraction, habs, hround]
  rw [if_neg (by norm_num : ¬ (1/250 : ℚ) < 1e-9)]
  rw [if_neg (by norm_num : ¬ (1/250 : ℚ) < 0)]
  have htn : (0 : ℤ).toNat = 0 := rfl
  rw [htn]
  have herr0 : errAt (1/250 : ℚ) (0, 1) = 1/250 := by
    rw [errAt, valAt]
    norm_num
  rw [herr0, sbF_init]
  decide

end Frac

/-- Counterexample to C6 as stated: for `x = 1/250` under the default
denominator bound 10000 and tolerance `1e-9`, `decimalToFraction` is cut off
by its 200-iteration cap and returns `1/200`, although the fraction `1/250`
(denominator `250 ≤ 10000`) has error `0`, smaller by far more than the
stated tolerance. -/
theorem claim6_nearest_counterexample :
    decimalToFraction (.fin (1/250 : ℚ)) 10000 (1e-9) = ⟨.int 1, 200⟩ ∧
      (0 < (250:ℕ) ∧ (250:ℕ) ≤ 10000) ∧
      |(1/250 : ℚ) - 1/250| + 1e-9 < |(1/250 : ℚ) - 1/200| :=
  ⟨decimalToFraction_one_div_250, by norm_num, by
    have h1 : |(1/250 : ℚ) - 1/250| = 0 := by norm_num
    have h2 : |(1/250 : ℚ) - 1/200| = 1/1000 := by
      rw [abs_of_nonpos (by norm_num : (1/250 : ℚ) - 1/200 ≤ 0)]
      norm_num
    rw [h1, h2]
    norm_num⟩

namespace Frac

/-- Farey-interval bound: a fraction strictly between two fractions whose
cross-determinant is `1` has denominator at least the sum of their
denominators. -/
theorem farey_den_bound (a b c d p q : ℤ) (hb : 0 < b) (hd : 0 < d)
    (hq : 0 < q) (hdet : c * b - a * d = 1)
    (h1 : (a:ℚ)/b < (p:ℚ)/q) (h2 : (p:ℚ)/q < (c:ℚ)/d) : b + d ≤ q := by
  have hbQ : (0:ℚ) < (b:ℚ) := by exact_mod_cast hb
  have hqQ : (0:ℚ) < (q:ℚ) := by exact_mod_cast hq
  have hdQ : (0:ℚ) < (d:ℚ) := by exact_mod_cast hd
  have e1 : a * q < p * b := by
    have := (div_lt_div_iff₀ hbQ hqQ).mp h1
    exact_mod_cast this
  have e2 : p * d < c * q := by
    have := (div_lt_div_iff₀ hqQ hdQ).mp h2
    exact_mod_cast this
  have e1' : 1 ≤ p * b - a * q := by omega
  have e2' : 1 ≤ c * q - p * d := by omega
  have hqid : b * (c * q - p * d) + d * (p * b - a * q) = q := by
    linear_combination q * hdet
  nlinarith [mul_le_mul_of_nonneg_left e1' hd.le,
    mul_le_mul_of_nonneg_left e2' hb.le]

/-- When the mediant denominator exceeds the bound, no admissible fraction
lies strictly inside the bracket, so a best value covering the outside is
globally optimal. -/
theorem exit_opt (ax : ℚ) (N : ℕ) (ln ld hn hd bn bd : ℕ) (be : ℚ)
    (hld : 0 < ld) (hhd : 0 < hd)
    (hdet : (hn:ℤ) * ld - ln * hd = 1)
    (hbe : be = |ax - (bn:ℚ)/bd|)
    (hcap : N < ld + hd)
    (hinv : ∀ p q : ℤ, 0 < q → q ≤ (N:ℤ) →
      ((p:ℚ)/q ≤ (ln:ℚ)/ld ∨ (hn:ℚ)/hd ≤ (p:ℚ)/q) →
      be ≤ |ax - (p:ℚ)/q|) :
    ∀ p q : ℤ, 0 < q → q ≤ (N:ℤ) →
      |ax - (bn:ℚ)/bd| ≤ |ax - (p:ℚ)/q| := by
  intro p q hq hqN
  rcases le_or_lt ((p:ℚ)/q) ((ln:ℚ)/ld) with h | h
  · exact hbe ▸ hinv p q hq hqN (Or.inl h)
  rcases le_or_lt ((hn:ℚ)/hd) ((p:ℚ)/q) with h' | h'
  · exact hbe ▸ hinv p q hq hqN (Or.inr h')
  exfalso
  have h1' : (((ln:ℤ)):ℚ)/((ld:ℤ):ℚ) < (p:ℚ)/(q:ℚ) := by push_cast; exact h
  have h2' : (p:ℚ)/(q:ℚ) < ((hn:ℤ):ℚ)/((hd:ℤ):ℚ) := by push_cast; exact h'
  have hfar := farey_den_bound ln ld hn hd p q
    (by exact_mod_cast hld) (by exact_mod_cast hhd) hq hdet h1' h2'
  have hcap' : (N:ℤ) < (ld:ℤ) + (hd:ℤ) := by exact_mod_cast hcap
  omega

end Frac

namespace Frac

/-- Main loop invariant of `toFraction`: starting from a unimodular bracket
strictly enclosing the target, with a best fraction whose error already
covers everything outside the bracket, and with enough fuel that the fuel
cap cannot fire before the denominator cap, the loop returns a best fraction
with denominator in `[1, N]` that no fraction with denominator `≤ N` beats. -/
theorem sbLoopT_optimal (ax : ℚ) (N : ℕ) :
    ∀ (f ln ld hn hd bn bd : ℕ) (be : ℚ),
      0 < ld → 0 < hd →
      (hn:ℤ) * ld - ln * hd = 1 →
      (ln:ℚ)/ld < ax → ax < (hn:ℚ)/hd →
      0 < bd → bd ≤ N →
      be = |ax - (bn:ℚ)/bd| →
      N + 2 ≤ f + ld + hd →
      (∀ p q : ℤ, 0 < q → q ≤ (N:ℤ) →
        ((p:ℚ)/q ≤ (ln:ℚ)/ld ∨ (hn:ℚ)/hd ≤ (p:ℚ)/q) →
        be ≤ |ax - (p:ℚ)/q|) →
      ∃ rn rd : ℕ, sbLoopT ax N f (ln, ld) (hn, hd) (bn, bd) be = (rn, rd) ∧
        0 < rd ∧ rd ≤ N ∧
        ∀ p q : ℤ, 0 < q → q ≤ (N:ℤ) →
          |ax - (rn:ℚ)/rd| ≤ |ax - (p:ℚ)/q| := by
  intro f
  induction f with
  | zero =>
    intro ln ld hn hd bn bd be hld hhd hdet hlo hhi hbd hbdN hbe hfuel hinv
    refine ⟨bn, bd, by rw [sbLoopT], hbd, hbdN, ?_⟩
    exact exit_opt ax N ln ld hn hd bn bd be hld hhd hdet hbe (by omega) hinv
  | succ f ih =>
    intro ln ld hn hd bn bd be hld hhd hdet hlo hhi hbd hbdN hbe hfuel hinv
    simp only [sbLoopT]
    rw [show med (ln, ld) (hn, hd) = (ln + hn, ld + hd) from rfl]
    by_cases hcap : N < ((ln + hn, ld + hd) : ℕ × ℕ).2
    · rw [if_pos hcap]
      dsimp only at hcap
      exact ⟨bn, bd, rfl, hbd, hbdN,
        exit_opt ax N ln ld hn hd bn bd be hld hhd hdet hbe hcap hinv⟩
    · rw [if_neg hcap]
      dsimp only at hcap
      push_neg at hcap
      have hvalrfl : valAt (ln + hn, ld + hd) =
          ((ln + hn : ℕ):ℚ)/((ld + hd : ℕ):ℚ) := rfl
      have main : ∀ (bn' bd' : ℕ) (be' : ℚ),
          be' = |ax - (bn':ℚ)/bd'| → 0 < bd' → bd' ≤ N →
          be' ≤ be → be' ≤ errAt ax (ln + hn, ld + hd) →
          ∃ rn rd : ℕ,
            (if valAt (ln + hn, ld + hd) < ax then
              sbLoopT ax N f (ln + hn, ld + hd) (hn, hd) (bn', bd') be'
            else if ax < valAt (ln + hn, ld + hd) then
              sbLoopT ax N f (ln, ld) (ln + hn, ld + hd) (bn', bd') be'
            else (bn', bd')) = (rn, rd) ∧
            0 < rd ∧ rd ≤ N ∧
            ∀ p q : ℤ, 0 < q → q ≤ (N:ℤ) →
              |ax - (rn:ℚ)/rd| ≤ |ax - (p:ℚ)/q| := by
        intro bn' bd' be' hbe' hbd' hbdN' hle_be hle_E
        by_cases hvlt : valAt (ln + hn, ld + hd) < ax
        · rw [if_pos hvlt]
          refine ih (ln + hn) (ld + hd) hn hd bn' bd' be' (by omega) hhd
            ?_ ?_ hhi hbd' hbdN' hbe' (by omega) ?_
          · push_cast
            linear_combination hdet
          · rw [← hvalrfl]
            exact hvlt
          · intro p q hq hqN hcase
            rcases hcase with hcase | hcase
            · have hEval : errAt ax (ln + hn, ld + hd) =
                  ax - valAt (ln + hn, ld + hd) := by
                rw [errAt, abs_of_nonneg (by linarith)]
              calc be' ≤ errAt ax (ln + hn, ld + hd) := hle_E
                _ = ax - valAt (ln + hn, ld + hd) := hEval
                _ ≤ ax - (p:ℚ)/q := by
                    rw [hvalrfl]
                    linarith [hcase]
                _ ≤ |ax - (p:ℚ)/q| := le_abs_self _
            · exact le_trans hle_be (hinv p q hq hqN (Or.inr hcase))
        · rw [if_neg hvlt]
          by_cases hvgt : ax < valAt (ln + hn, ld + hd)
          · rw [if_pos hvgt]
            refine ih ln ld (ln + hn) (ld + hd) bn' bd' be' hld (by omega)
              ?_ hlo ?_ hbd' hbdN' hbe' (by omega) ?_
            · push_cast
              linear_combination hdet
            · rw [← hvalrfl]
              exact hvgt
            · intro p q hq hqN hcase
              rcases hcase with hcase | hcase
              · exact le_trans hle_be (hinv p q hq hqN (Or.inl hcase))
              · have hEval : errAt ax (ln + hn, ld + hd) =
                    valAt (ln + hn, ld + hd) - ax := by
                  rw [errAt, abs_of_nonpos (by linarith)]
                  ring
                calc be' ≤ errAt ax (ln + hn, ld + hd) := hle_E
                  _ = valAt (ln + hn, ld + hd) - ax := hEval
                  _ ≤ (p:ℚ)/q - ax := by
                      rw [hvalrfl]
                      linarith [hcase]
                  _ ≤ |ax - (p:ℚ)/q| := by
                      rw [abs_sub_comm]
                      exact le_abs_self _
          · rw [if_neg hvgt]
            have hax : ax = valAt (ln + hn, ld + hd) :=
              le_antisymm (not_lt.mp hvlt) (not_lt.mp hvgt)
            refine ⟨bn', bd', rfl, hbd', hbdN', ?_⟩
            intro p q hq hqN
            have hE0 : errAt ax (ln + hn, ld + hd) = 0 := by
              rw [errAt, ← hax, sub_self, abs_zero]
            have hbe0 : |ax - (bn':ℚ)/bd'| = 0 :=
              le_antisymm (hbe' ▸ (hE0 ▸ hle_E)) (abs_nonneg _)
            rw [hbe0]
            exact abs_nonneg _
      by_cases hEbe : errAt ax (ln + hn, ld + hd) < be
      · rw [if_pos hEbe, if_pos hEbe]
        exact main (ln + hn) (ld + hd) (errAt ax (ln + hn, ld + hd)) rfl
          (by omega) hcap hEbe.le le_rfl
      · rw [if_neg hEbe, if_neg hEbe]
        exact main bn bd be hbe hbd hbdN le_rfl (not_lt.mp hEbe)

end Frac

namespace Frac

/-- The main Stern-Brocot loop of `toFraction`, entered with the initial
integer bracket `[ip, ip+1]` around a non-integer target and the better
endpoint as initial best, returns a best-possible fraction with denominator
in `[1, N]` whenever `1 ≤ N ≤ 10000`. -/
theorem toFraction_opt_main (axv : ℚ) (N ip : ℕ)
    (h1 : (ip:ℚ) < axv) (h2 : axv < (ip:ℚ) + 1)
    (hN1 : 1 ≤ N) (hN2 : N ≤ 10000) :
    ∃ rn rd : ℕ,
      sbLoopT axv N 10000 (ip, 1) (ip + 1, 1)
        (if errAt axv (ip + 1, 1) < errAt axv (ip, 1) then (ip + 1, 1)
          else (ip, 1))
        (if errAt axv (ip + 1, 1) < errAt axv (ip, 1) then errAt axv (ip + 1, 1)
          else errAt axv (ip, 1)) = (rn, rd) ∧
      0 < rd ∧ rd ≤ N ∧
      ∀ p q : ℤ, 0 < q → q ≤ (N:ℤ) →
        |axv - (rn:ℚ)/rd| ≤ |axv - (p:ℚ)/q| := by
  have hvlo : valAt (ip, 1) = (ip:ℚ) := by simp [valAt]
  have hvhi : valAt (ip + 1, 1) = (ip:ℚ) + 1 := by
    simp [valAt]
  have hlo_err : errAt axv (ip, 1) = axv - (ip:ℚ) := by
    rw [errAt, hvlo, abs_of_pos (by linarith)]
  have hhi_err : errAt axv (ip + 1, 1) = (ip:ℚ) + 1 - axv := by
    rw [errAt, hvhi, abs_sub_comm, abs_of_pos (by linarith)]
  have hcast1 : ((ip:ℕ):ℚ)/((1:ℕ):ℚ) = (ip:ℚ) := by norm_num
  have hcast2 : ((ip + 1:ℕ):ℚ)/((1:ℕ):ℚ) = (ip:ℚ) + 1 := by push_cast; ring
  have hout : ∀ be : ℚ, be ≤ errAt axv (ip, 1) → be ≤ errAt axv (ip + 1, 1) →
      ∀ p q : ℤ, 0 < q → q ≤ (N:ℤ) →
      ((p:ℚ)/q ≤ ((ip:ℕ):ℚ)/((1:ℕ):ℚ) ∨
        ((ip + 1:ℕ):ℚ)/((1:ℕ):ℚ) ≤ (p:ℚ)/q) →
      be ≤ |axv - (p:ℚ)/q| := by
    intro be hble hbhe p q hq hqN hcase
    rcases hcase with hcase | hcase
    · rw [hcast1] at hcase
      rw [hlo_err] at hble
      calc be ≤ axv - (ip:ℚ) := hble
        _ ≤ axv - (p:ℚ)/q := by linarith
        _ ≤ |axv - (p:ℚ)/q| := le_abs_self _
    · rw [hcast2] at hcase
      rw [hhi_err] at hbhe
      calc be ≤ (ip:ℚ) + 1 - axv := hbhe
        _ ≤ (p:ℚ)/q - axv := by linarith
        _ ≤ |axv - (p:ℚ)/q| := by
            rw [abs_sub_comm]
            exact le_abs_self _
  by_cases hc : errAt axv (ip + 1, 1) < errAt axv (ip, 1)
  · rw [if_pos hc, if_pos hc]
    exact sbLoopT_optimal axv N 10000 ip 1 (ip + 1) 1 (ip + 1) 1
      (errAt axv (ip + 1, 1)) one_pos one_pos (by push_cast; ring)
      (by rw [hcast1]; exact h1) (by rw [hcast2]; exact h2)
      one_pos hN1 rfl (by omega) (hout _ hc.le le_rfl)
  · rw [if_neg hc, if_neg hc]
    exact sbLoopT_optimal axv N 10000 ip 1 (ip + 1) 1 ip 1
      (errAt axv (ip, 1)) one_pos one_pos (by push_cast; ring)
      (by rw [hcast1]; exact h1) (by rw [hcast2]; exact h2)
      one_pos hN1 rfl (by omega) (hout _ le_rfl (not_lt.mp hc))

end Frac

/-- Claim C6 (amended): the fractions.js approximator `toFraction` is
optimal — for every finite rational input with `|x| ≤ 1e10` and every
denominator bound `1 ≤ N ≤ 10000` (so the 10000-iteration cap cannot fire
before the denominator cap) it returns a fraction with denominator in
`[1, N]` whose distance to the input is no larger than that of any fraction
with positive denominator at most `N`.  The cited `decimalToFraction` of
src/fraction.js violates nearest-ness because of its 200-iteration cap, and
`toFraction` itself returns no fraction at all for `|x| > 1e10`. -/
theorem claim6_nearest_amended (v : ℚ) (N : ℕ)
    (hv : |v| ≤ 1e10) (hN1 : 1 ≤ N) (hN2 : N ≤ 10000) :
    ∃ n d : ℤ, Frac.toFraction (.fin v) N = some (n, d) ∧
      0 < d ∧ d ≤ (N:ℤ) ∧
      ∀ p q : ℤ, 0 < q → q ≤ (N:ℤ) →
        |v - (n:ℚ)/(d:ℚ)| ≤ |v - (p:ℚ)/(q:ℚ)| := by
  by_cases hv0 : v = 0
  · subst hv0
    refine ⟨0, 1, by simp [Frac.toFraction], one_pos, by exact_mod_cast hN1, ?_⟩
    intro p q hq hqN
    simp
  · by_cases hint : |v| = (⌊|v|⌋ : ℚ)
    · have hjr : Frac.jsRound |v| = ⌊|v|⌋ := by
        rw [Frac.jsRound, hint, Int.floor_int_add]
        norm_num
      have hneq : Frac.toFraction (.fin v) N =
          some ((if v < 0 then -⌊|v|⌋ else ⌊|v|⌋), 1) := by
        simp only [Frac.toFraction, if_neg hv0, if_neg (not_not_intro hv),
          if_pos hint, hjr]
      have hcast : ((if v < 0 then -⌊|v|⌋ else ⌊|v|⌋ : ℤ) : ℚ) = v := by
        rcases lt_or_le v 0 with h | h
        · rw [if_pos h]
          push_cast
          rw [← hint, abs_of_neg h]
          ring
        · rw [if_neg (not_lt.mpr h), ← hint]
          exact abs_of_nonneg h
      refine ⟨_, 1, hneq, one_pos, by exact_mod_cast hN1, ?_⟩
      intro p q hq hqN
      rw [Int.cast_one, div_one, hcast, sub_self, abs_zero]
      exact abs_nonneg _
    · have hfl_le : (⌊|v|⌋:ℚ) ≤ |v| := Int.floor_le _
      have hfl_lt : (⌊|v|⌋:ℚ) < |v| := lt_of_le_of_ne hfl_le (fun h => hint h.symm)
      have hlt1 : |v| < (⌊|v|⌋:ℚ) + 1 := Int.lt_floor_add_one _
      have hfl_nonneg : 0 ≤ ⌊|v|⌋ := Int.floor_nonneg.mpr (abs_nonneg v)
      have hipc : ((⌊|v|⌋.toNat : ℕ) : ℚ) = ((⌊|v|⌋ : ℤ) : ℚ) := by
        exact_mod_cast Int.toNat_of_nonneg hfl_nonneg
      obtain ⟨rn, rd, hrun, hrd, hrdN, hopt⟩ :=
        Frac.toFraction_opt_main |v| N ⌊|v|⌋.toNat (by rw [hipc]; exact hfl_lt)
          (by rw [hipc]; exact hlt1) hN1 hN2
      have heq : Frac.toFraction (.fin v) N =
          some (Frac.reduceJS ((if v < 0 then -(rn:ℤ) else (rn:ℤ)), (rd:ℤ))) := by
        simp only [Frac.toFraction, if_neg hv0, if_neg (not_not_intro hv),
          if_neg hint]
        rw [hrun]
      obtain ⟨n', d', hred, hd'pos, hd'le, hval, hgcd', hzero'⟩ :=
        Frac.reduceJS_spec (if v < 0 then -(rn:ℤ) else (rn:ℤ)) (rd:ℤ)
          (by exact_mod_cast hrd)
      refine ⟨n', d', by rw [heq, hred], hd'pos, ?_, ?_⟩
      · have h2 : ((rd:ℕ):ℤ) ≤ ((N:ℕ):ℤ) := by exact_mod_cast hrdN
        omega
      · intro p q hq hqN
        rw [hval]
        rcases lt_or_le v 0 with hneg | hpos
        · rw [if_pos hneg]
          have hstep := hopt (-p) q hq hqN
          rw [abs_of_neg hneg] at hstep
          push_cast at hstep
          rw [show -v - (rn:ℚ)/(rd:ℚ) = -(v - (-(rn:ℚ))/(rd:ℚ)) from by ring,
            show -v - (-(p:ℚ))/(q:ℚ) = -(v - (p:ℚ)/(q:ℚ)) from by ring,
            abs_neg, abs_neg] at hstep
          push_cast
          exact hstep
        · rw [if_neg (not_lt.mpr hpos)]
          have hstep := hopt p q hq hqN
          rw [abs_of_nonneg hpos] at hstep
          push_cast
          exact hstep

/-- Witness for the amended C6 at the concrete input 1/2 with denominator
bound 1000. -/
theorem claim6_nearest_amended_witness :
    ∃ n d : ℤ, Frac.toFraction (.fin (1/2)) 1000 = some (n, d) ∧
      0 < d ∧ d ≤ ((1000:ℕ):ℤ) ∧
      ∀ p q : ℤ, 0 < q → q ≤ ((1000:ℕ):ℤ) →
        |1/2 - (n:ℚ)/(d:ℚ)| ≤ |1/2 - (p:ℚ)/(q:ℚ)| :=
  claim6_nearest_amended (1/2) 1000
    (by rw [abs_of_nonneg (by norm_num : (0:ℚ) ≤ 1/2)]; norm_num)
    (by norm_num) (by norm_num)
